import Mathlib

/-!
Verification of the byok-ai credential vault core: the envelope cipher
(`Encryption.encrypt` / `Encryption.decrypt`), the in-memory credential store
(`MemoryStore`), and the orchestrator (`BYOK`).

Strings are modelled as `List Char` (a JS string is a sequence of code points),
byte buffers as `List Nat` with every element `< 256`.  The Node `crypto`
primitives (PBKDF2, the AES-256-GCM keystream and authentication tag) are
modelled as concrete deterministic functions with the shape guaranteed by the
Node API: PBKDF2 is a deterministic function of master key and salt producing
32 bytes, GCM encryption xors the plaintext with a keystream determined by
(key, iv) and produces a 16-byte tag determined by (key, iv, ciphertext), and
GCM decryption fails exactly when the supplied tag differs from the recomputed
one.  Randomness (`crypto.randomBytes`) is passed explicitly: `encrypt` takes
the salt and iv draws as arguments.
-/

namespace Bytes

/-- Predicate: every element of the list is a byte value. -/
def allBytes (bs : List Nat) : Prop := ∀ b ∈ bs, b < 256

instance (bs : List Nat) : Decidable (allBytes bs) := by
  unfold allBytes; infer_instance

end Bytes

namespace Base64

/-- The standard base64 alphabet, as used by Node's Buffer base64 codec. -/
def alphabet : List Char :=
  "ABCDEFGHIJKLMNOPQRSTUVWXYZabcdefghijklmnopqrstuvwxyz0123456789+/".toList

/-- Character for a 6-bit value. -/
def c64 (n : Nat) : Char := alphabet.getD n 'A'

/-- Decode a character to its 6-bit value; `none` for characters outside the
alphabet (Node's decoder skips such characters, including padding). -/
def d64 (c : Char) : Option Nat := alphabet.findIdx? (fun a => a = c)

/-- Encode a byte list as base64 text with padding, 3 input bytes per 4
output characters, mirroring `Buffer.prototype.toString("base64")`. -/
def base64Encode : List Nat → List Char
  | b0 :: b1 :: b2 :: rest =>
      c64 (b0 / 4) :: c64 ((b0 % 4) * 16 + b1 / 16) ::
      c64 ((b1 % 16) * 4 + b2 / 64) :: c64 (b2 % 64) :: base64Encode rest
  | [b0, b1] => [c64 (b0 / 4), c64 ((b0 % 4) * 16 + b1 / 16), c64 ((b1 % 16) * 4), '=']
  | [b0] => [c64 (b0 / 4), c64 ((b0 % 4) * 16), '=', '=']
  | [] => []

/-- The 6-bit values of the characters of a string that lie in the alphabet,
in order (Node's forgiving decoder ignores everything else). -/
def sextets (s : List Char) : List Nat := s.filterMap d64

/-- Repack a list of 6-bit values into bytes: 4 sextets give 3 bytes, a
2-sextet tail gives 1 byte, a 3-sextet tail gives 2 bytes. -/
def packBits : List Nat → List Nat
  | a :: b :: c :: d :: rest =>
      (a * 4 + b / 16) :: ((b % 16) * 16 + c / 4) :: ((c % 4) * 64 + d) :: packBits rest
  | [a, b] => [a * 4 + b / 16]
  | [a, b, c] => [a * 4 + b / 16, (b % 16) * 16 + c / 4]
  | _ => []

/-- Decode base64 text to bytes, mirroring `Buffer.from(s, "base64")`:
characters outside the alphabet are ignored, then sextets are repacked. -/
def base64Decode (s : List Char) : List Nat := packBits (sextets s)

theorem d64_c64 : ∀ n, n < 64 → d64 (c64 n) = some n := by decide

theorem c64_ne_pad : ∀ n, n < 64 → c64 n ≠ '=' := by decide

theorem d64_pad : d64 '=' = none := by decide

theorem sextets_cons_of_lt (n : Nat) (hn : n < 64) (s : List Char) :
    sextets (c64 n :: s) = n :: sextets s := by
  simp [sextets, List.filterMap_cons, d64_c64 n hn]

theorem sextets_cons_pad (s : List Char) :
    sextets ('=' :: s) = sextets s := by
  simp [sextets, List.filterMap_cons, d64_pad]

/-- Round-trip: decoding an encoded byte list gives back the bytes. -/
theorem base64_roundtrip : ∀ bs : List Nat, Bytes.allBytes bs →
    base64Decode (base64Encode bs) = bs := by
  intro bs
  induction bs using base64Encode.induct with
  | case1 b0 b1 b2 rest ih =>
    intro hall
    have h0 : b0 < 256 := hall b0 (by simp)
    have h1 : b1 < 256 := hall b1 (by simp)
    have h2 : b2 < 256 := hall b2 (by simp)
    have hrest : Bytes.allBytes rest := fun b hb => hall b (by simp [hb])
    have e0 : b0 / 4 < 64 := by omega
    have e1 : (b0 % 4) * 16 + b1 / 16 < 64 := by omega
    have e2 : (b1 % 16) * 4 + b2 / 64 < 64 := by omega
    have e3 : b2 % 64 < 64 := by omega
    unfold base64Decode at *
    rw [base64Encode, sextets_cons_of_lt _ e0, sextets_cons_of_lt _ e1,
      sextets_cons_of_lt _ e2, sextets_cons_of_lt _ e3, packBits]
    have hb0 : b0 / 4 * 4 + ((b0 % 4) * 16 + b1 / 16) / 16 = b0 := by omega
    have hb1 : ((b0 % 4) * 16 + b1 / 16) % 16 * 16 + ((b1 % 16) * 4 + b2 / 64) / 4 = b1 := by
      omega
    have hb2 : ((b1 % 16) * 4 + b2 / 64) % 4 * 64 + b2 % 64 = b2 := by omega
    rw [hb0, hb1, hb2, ih hrest]
  | case2 b0 b1 =>
    intro hall
    have h0 : b0 < 256 := hall b0 (by simp)
    have h1 : b1 < 256 := hall b1 (by simp)
    have e0 : b0 / 4 < 64 := by omega
    have e1 : (b0 % 4) * 16 + b1 / 16 < 64 := by omega
    have e2 : (b1 % 16) * 4 < 64 := by omega
    unfold base64Decode
    rw [base64Encode, sextets_cons_of_lt _ e0, sextets_cons_of_lt _ e1,
      sextets_cons_of_lt _ e2, sextets_cons_pad]
    show packBits [b0 / 4, (b0 % 4) * 16 + b1 / 16, (b1 % 16) * 4] = [b0, b1]
    rw [packBits]
    have hb0 : b0 / 4 * 4 + ((b0 % 4) * 16 + b1 / 16) / 16 = b0 := by omega
    have hb1 : ((b0 % 4) * 16 + b1 / 16) % 16 * 16 + (b1 % 16) * 4 / 4 = b1 := by omega
    rw [hb0, hb1]
  | case3 b0 =>
    intro hall
    have h0 : b0 < 256 := hall b0 (by simp)
    have e0 : b0 / 4 < 64 := by omega
    have e1 : (b0 % 4) * 16 < 64 := by omega
    unfold base64Decode
    rw [base64Encode, sextets_cons_of_lt _ e0, sextets_cons_of_lt _ e1,
      sextets_cons_pad, sextets_cons_pad]
    show packBits [b0 / 4, (b0 % 4) * 16] = [b0]
    rw [packBits]
    have hb0 : b0 / 4 * 4 + (b0 % 4) * 16 / 16 = b0 := by omega
    rw [hb0]
  | case4 =>
    intro _
    simp [base64Encode, base64Decode, sextets, packBits]

/-- Four characters are produced for every (partial) group of three bytes. -/
theorem base64Encode_length : ∀ bs : List Nat,
    (base64Encode bs).length = (bs.length + 2) / 3 * 4 := by
  intro bs
  induction bs using base64Encode.induct with
  | case1 b0 b1 b2 rest ih =>
    rw [base64Encode]
    simp only [List.length_cons, ih]
    omega
  | case2 b0 b1 => simp [base64Encode]
  | case3 b0 => simp [base64Encode]
  | case4 => simp [base64Encode]

/-- Packing n sextets yields at most 3n/4 bytes. -/
theorem packBits_length_le : ∀ l : List Nat, (packBits l).length * 4 ≤ l.length * 3 := by
  intro l
  induction l using packBits.induct with
  | case1 a b c d rest ih =>
    rw [packBits]
    simp only [List.length_cons]
    omega
  | case2 a b => simp [packBits]
  | case3 a b c => simp [packBits]
  | case4 x h1 h2 h3 =>
    cases x with
    | nil => simp [packBits]
    | cons a as =>
      cases as with
      | nil => simp [packBits]
      | cons b bs =>
        cases bs with
        | nil => exact absurd rfl (h2 a b)
        | cons c cs =>
          cases cs with
          | nil => exact absurd rfl (h3 a b c)
          | cons d ds => exact absurd rfl (h1 a b c d ds)

/-- Decoded length is at most 3/4 of the character count. -/
theorem base64Decode_length_le (s : List Char) :
    (base64Decode s).length * 4 ≤ s.length * 3 := by
  have h1 := packBits_length_le (sextets s)
  have h2 : (sextets s).length ≤ s.length := List.length_filterMap_le _ _
  calc (base64Decode s).length * 4 ≤ (sextets s).length * 3 := h1
    _ ≤ s.length * 3 := by omega

/-- Every byte produced by the decoder is in range. -/
theorem packBits_bytes : ∀ l : List Nat, (∀ x ∈ l, x < 64) →
    Bytes.allBytes (packBits l) := by
  intro l
  induction l using packBits.induct with
  | case1 a b c d rest ih =>
    intro h
    have ha : a < 64 := h a (by simp)
    have hb : b < 64 := h b (by simp)
    have hc : c < 64 := h c (by simp)
    have hd : d < 64 := h d (by simp)
    intro x hx
    rw [packBits] at hx
    simp only [List.mem_cons] at hx
    rcases hx with rfl | rfl | rfl | hx
    · omega
    · omega
    · omega
    · exact ih (fun y hy => h y (by simp [hy])) x hx
  | case2 a b =>
    intro h x hx
    have ha : a < 64 := h a (by simp)
    have hb : b < 64 := h b (by simp)
    simp only [packBits, List.mem_singleton] at hx
    omega
  | case3 a b c =>
    intro h x hx
    have ha : a < 64 := h a (by simp)
    have hb : b < 64 := h b (by simp)
    have hc : c < 64 := h c (by simp)
    simp only [packBits, List.mem_cons, List.not_mem_nil, or_false] at hx
    rcases hx with rfl | rfl
    · omega
    · omega
  | case4 x h1 h2 h3 =>
    intro h y hy
    cases x with
    | nil => simp [packBits] at hy
    | cons a as =>
      cases as with
      | nil => simp [packBits] at hy
      | cons b bs =>
        cases bs with
        | nil => exact absurd rfl (h2 a b)
        | cons c cs =>
          cases cs with
          | nil => exact absurd rfl (h3 a b c)
          | cons d ds => exact absurd rfl (h1 a b c d ds)

end Base64


namespace Utf8

/-- UTF-8 encoding of a single code point, as performed by
`Buffer.from(s, "utf-8")` for each character of the string. -/
def utf8EncodeChar (c : Char) : List Nat :=
  if c.toNat < 128 then [c.toNat]
  else if c.toNat < 2048 then [192 + c.toNat / 64, 128 + c.toNat % 64]
  else if c.toNat < 65536 then
    [224 + c.toNat / 4096, 128 + c.toNat / 64 % 64, 128 + c.toNat % 64]
  else
    [240 + c.toNat / 262144, 128 + c.toNat / 4096 % 64, 128 + c.toNat / 64 % 64,
      128 + c.toNat % 64]

/-- UTF-8 encoding of a string: the concatenated encodings of its
characters. -/
def utf8Encode : List Char → List Nat
  | [] => []
  | c :: cs => utf8EncodeChar c ++ utf8Encode cs

/-- Number of continuation bytes announced by a UTF-8 lead byte. -/
def seqLen (b0 : Nat) : Nat :=
  if b0 < 128 then 0 else if b0 < 224 then 1 else if b0 < 240 then 2 else 3

/-- Reassemble a code point from a lead byte and its continuation bytes. -/
def decodeVal (b0 : Nat) (cont : List Nat) : Nat :=
  match cont with
  | [] => b0
  | [b1] => (b0 - 192) * 64 + (b1 - 128)
  | [b1, b2] => (b0 - 224) * 4096 + (b1 - 128) * 64 + (b2 - 128)
  | b1 :: b2 :: b3 :: _ =>
      (b0 - 240) * 262144 + (b1 - 128) * 4096 + (b2 - 128) * 64 + (b3 - 128)

/-- UTF-8 decoding of a byte list, as performed by `buffer.toString("utf-8")`
on well-formed sequences: the lead byte selects the sequence length and the
code point is reassembled from the payload bits (a truncated final sequence
yields the replacement character, as in Node). -/
def utf8Decode : List Nat → List Char
  | [] => []
  | b0 :: rest =>
    if rest.length < seqLen b0 then [Char.ofNat 65533]
    else Char.ofNat (decodeVal b0 (rest.take (seqLen b0))) ::
      utf8Decode (rest.drop (seqLen b0))
termination_by bs => bs.length
decreasing_by
  simp only [List.length_cons]
  have := List.length_drop (seqLen b0) rest
  omega

theorem char_toNat_lt (c : Char) : c.toNat < 1114112 := by
  have e : c.toNat = c.val.toNat := rfl
  rcases c.valid with h | h <;> omega

theorem utf8EncodeChar_ne_nil (c : Char) : utf8EncodeChar c ≠ [] := by
  unfold utf8EncodeChar
  split
  · simp
  · split
    · simp
    · split <;> simp

theorem utf8EncodeChar_bytes (c : Char) : Bytes.allBytes (utf8EncodeChar c) := by
  have hv := char_toNat_lt c
  intro b hb
  unfold utf8EncodeChar at hb
  split at hb
  · simp only [List.mem_singleton] at hb
    omega
  · split at hb
    · simp only [List.mem_cons, List.not_mem_nil, or_false] at hb
      rcases hb with rfl | rfl <;> omega
    · split at hb
      · simp only [List.mem_cons, List.not_mem_nil, or_false] at hb
        rcases hb with rfl | rfl | rfl <;> omega
      · simp only [List.mem_cons, List.not_mem_nil, or_false] at hb
        rcases hb with rfl | rfl | rfl | rfl <;> omega

theorem utf8Decode_encodeChar_append (c : Char) (bs : List Nat) :
    utf8Decode (utf8EncodeChar c ++ bs) = c :: utf8Decode bs := by
  have hv := char_toNat_lt c
  have hofn : Char.ofNat c.toNat = c := Char.ofNat_toNat c
  by_cases h1 : c.toNat < 128
  · have he : utf8EncodeChar c = [c.toNat] := by
      unfold utf8EncodeChar
      rw [if_pos h1]
    rw [he, List.cons_append, List.nil_append, utf8Decode]
    have g : seqLen c.toNat = 0 := by
      unfold seqLen
      rw [if_pos h1]
    rw [g, if_neg (by omega)]
    simp only [List.take_zero, List.drop_zero]
    have e : decodeVal c.toNat [] = c.toNat := rfl
    rw [e, hofn]
  · by_cases h2 : c.toNat < 2048
    · have he : utf8EncodeChar c = [192 + c.toNat / 64, 128 + c.toNat % 64] := by
        unfold utf8EncodeChar
        rw [if_neg h1, if_pos h2]
      rw [he]
      show utf8Decode ((192 + c.toNat / 64) :: ((128 + c.toNat % 64) :: bs)) =
        c :: utf8Decode bs
      rw [utf8Decode]
      have g : seqLen (192 + c.toNat / 64) = 1 := by
        unfold seqLen
        have a1 : ¬ (192 + c.toNat / 64 < 128) := by omega
        have a2 : 192 + c.toNat / 64 < 224 := by omega
        simp [a1, a2]
      rw [g, if_neg (by simp)]
      simp only [List.take_succ_cons, List.take_zero, List.drop_succ_cons, List.drop_zero]
      have e : decodeVal (192 + c.toNat / 64) [128 + c.toNat % 64] =
          (192 + c.toNat / 64 - 192) * 64 + (128 + c.toNat % 64 - 128) := rfl
      have e2 : decodeVal (192 + c.toNat / 64) [128 + c.toNat % 64] = c.toNat := by
        rw [e]; omega
      rw [e2, hofn]
    · by_cases h3 : c.toNat < 65536
      · have he : utf8EncodeChar c =
            [224 + c.toNat / 4096, 128 + c.toNat / 64 % 64, 128 + c.toNat % 64] := by
          unfold utf8EncodeChar
          rw [if_neg h1, if_neg h2, if_pos h3]
        rw [he]
        show utf8Decode ((224 + c.toNat / 4096) :: ((128 + c.toNat / 64 % 64) ::
          ((128 + c.toNat % 64) :: bs))) = c :: utf8Decode bs
        rw [utf8Decode]
        have g : seqLen (224 + c.toNat / 4096) = 2 := by
          unfold seqLen
          have a1 : ¬ (224 + c.toNat / 4096 < 128) := by omega
          have a2 : ¬ (224 + c.toNat / 4096 < 224) := by omega
          have a3 : 224 + c.toNat / 4096 < 240 := by omega
          simp [a1, a2, a3]
        rw [g, if_neg (by simp)]
        simp only [List.take_succ_cons, List.take_zero, List.drop_succ_cons, List.drop_zero]
        have e : decodeVal (224 + c.toNat / 4096)
            [128 + c.toNat / 64 % 64, 128 + c.toNat % 64] =
            (224 + c.toNat / 4096 - 224) * 4096 + (128 + c.toNat / 64 % 64 - 128) * 64 +
              (128 + c.toNat % 64 - 128) := rfl
        have e2 : decodeVal (224 + c.toNat / 4096)
            [128 + c.toNat / 64 % 64, 128 + c.toNat % 64] = c.toNat := by
          rw [e]; omega
        rw [e2, hofn]
      · have he : utf8EncodeChar c =
            [240 + c.toNat / 262144, 128 + c.toNat / 4096 % 64, 128 + c.toNat / 64 % 64,
              128 + c.toNat % 64] := by
          unfold utf8EncodeChar
          rw [if_neg h1, if_neg h2, if_neg h3]
        rw [he]
        show utf8Decode ((240 + c.toNat / 262144) :: ((128 + c.toNat / 4096 % 64) ::
          ((128 + c.toNat / 64 % 64) :: ((128 + c.toNat % 64) :: bs)))) = c :: utf8Decode bs
        rw [utf8Decode]
        have g : seqLen (240 + c.toNat / 262144) = 3 := by
          unfold seqLen
          have a1 : ¬ (240 + c.toNat / 262144 < 128) := by omega
          have a2 : ¬ (240 + c.toNat / 262144 < 224) := by omega
          have a3 : ¬ (240 + c.toNat / 262144 < 240) := by omega
          simp [a1, a2, a3]
        rw [g, if_neg (by simp)]
        simp only [List.take_succ_cons, List.take_zero, List.drop_succ_cons, List.drop_zero]
        have e : decodeVal (240 + c.toNat / 262144)
            [128 + c.toNat / 4096 % 64, 128 + c.toNat / 64 % 64, 128 + c.toNat % 64] =
            (240 + c.toNat / 262144 - 240) * 262144 + (128 + c.toNat / 4096 % 64 - 128) * 4096 +
              (128 + c.toNat / 64 % 64 - 128) * 64 + (128 + c.toNat % 64 - 128) := rfl
        have e2 : decodeVal (240 + c.toNat / 262144)
            [128 + c.toNat / 4096 % 64, 128 + c.toNat / 64 % 64, 128 + c.toNat % 64] =
            c.toNat := by
          rw [e]; omega
        rw [e2, hofn]

/-- Round-trip: decoding an encoded string gives back the string. -/
theorem utf8_roundtrip : ∀ s : List Char, utf8Decode (utf8Encode s) = s := by
  intro s
  induction s with
  | nil => rw [utf8Encode, utf8Decode]
  | cons c cs ih =>
    rw [utf8Encode, utf8Decode_encodeChar_append, ih]

theorem utf8Encode_bytes (s : List Char) : Bytes.allBytes (utf8Encode s) := by
  induction s with
  | nil => intro b hb; simp [utf8Encode] at hb
  | cons c cs ih =>
    intro b hb
    rw [utf8Encode] at hb
    rcases List.mem_append.mp hb with h | h
    · exact utf8EncodeChar_bytes c b h
    · exact ih b h

theorem utf8Encode_ne_nil (s : List Char) (h : s ≠ []) : utf8Encode s ≠ [] := by
  cases s with
  | nil => exact absurd rfl h
  | cons c cs =>
    rw [utf8Encode]
    intro hemp
    exact utf8EncodeChar_ne_nil c (List.append_eq_nil.mp hemp).1

end Utf8

namespace Crypto

/-- Mixing step for the concrete stand-ins of the Node crypto primitives. -/
def mix (a b : Nat) : Nat := (a * 131 + b + 7919) % 1073741789

/-- Absorb a byte list into an accumulator, one byte at a time. -/
def absorb (bs : List Nat) (a : Nat) : Nat := bs.foldl mix a

/-- Model of `crypto.pbkdf2Sync(masterKey, salt, 100000, 32, "sha256")`: a
deterministic function of the master key and the salt producing a 32-byte
derived key, which is the whole contract the cipher relies on. -/
def pbkdf2 (masterKey salt : List Nat) : List Nat :=
  (List.range 32).map
    (fun j => (absorb salt (absorb masterKey 17) * (j + 1) + j * j) % 256)

/-- Model of the AES-256-GCM keystream produced by
`crypto.createCipheriv("aes-256-gcm", key, iv)`: GCM runs the block cipher in
counter mode, so the ciphertext is the plaintext xored with a stream fully
determined by (key, iv). -/
def keystream (key iv : List Nat) (n : Nat) : List Nat :=
  (List.range n).map
    (fun i => (absorb iv (absorb key 29) + i * 151 + i * i * 7 + 3) % 256)

/-- Model of the 16-byte GCM authentication tag (`cipher.getAuthTag()`): a
deterministic function of (key, iv, ciphertext); `decipher.final()` throws
exactly when the tag supplied via `setAuthTag` differs from this recomputed
value. -/
def authTag (key iv ct : List Nat) : List Nat :=
  (List.range 16).map
    (fun j => (absorb ct (absorb iv (absorb key 43)) * (2 * j + 1) + j * 5) % 256)

/-- Pointwise xor of two byte lists, truncated to the shorter one. -/
def xorBytes (xs ks : List Nat) : List Nat := List.zipWith (fun a b => a ^^^ b) xs ks

theorem pbkdf2_length (mk salt : List Nat) : (pbkdf2 mk salt).length = 32 := by
  simp [pbkdf2]

theorem keystream_length (key iv : List Nat) (n : Nat) : (keystream key iv n).length = n := by
  simp [keystream]

theorem authTag_length (key iv ct : List Nat) : (authTag key iv ct).length = 16 := by
  simp [authTag]

theorem keystream_bytes (key iv : List Nat) (n : Nat) :
    Bytes.allBytes (keystream key iv n) := by
  intro b hb
  simp only [keystream, List.mem_map, List.mem_range] at hb
  obtain ⟨i, _, rfl⟩ := hb
  exact Nat.mod_lt _ (by omega)

theorem authTag_bytes (key iv ct : List Nat) : Bytes.allBytes (authTag key iv ct) := by
  intro b hb
  simp only [authTag, List.mem_map, List.mem_range] at hb
  obtain ⟨i, _, rfl⟩ := hb
  exact Nat.mod_lt _ (by omega)

theorem pbkdf2_bytes (mk salt : List Nat) : Bytes.allBytes (pbkdf2 mk salt) := by
  intro b hb
  simp only [pbkdf2, List.mem_map, List.mem_range] at hb
  obtain ⟨i, _, rfl⟩ := hb
  exact Nat.mod_lt _ (by omega)

theorem xorBytes_length (xs ks : List Nat) :
    (xorBytes xs ks).length = min xs.length ks.length := by
  simp [xorBytes]

theorem xorBytes_bytes : ∀ xs ks : List Nat, Bytes.allBytes xs → Bytes.allBytes ks →
    Bytes.allBytes (xorBytes xs ks) := by
  intro xs
  induction xs with
  | nil => intro ks _ _ b hb; simp [xorBytes] at hb
  | cons x xs ih =>
    intro ks hx hk
    cases ks with
    | nil => intro b hb; simp [xorBytes] at hb
    | cons k ks =>
      intro b hb
      simp only [xorBytes, List.zipWith_cons_cons, List.mem_cons] at hb
      rcases hb with rfl | hb
      · have h1 : x < 2 ^ 8 := hx x (by simp)
        have h2 : k < 2 ^ 8 := hk k (by simp)
        have := Nat.xor_lt_two_pow h1 h2
        omega
      · exact ih ks (fun y hy => hx y (by simp [hy])) (fun y hy => hk y (by simp [hy])) b hb

theorem xorBytes_involution : ∀ xs ks : List Nat, xs.length ≤ ks.length →
    xorBytes (xorBytes xs ks) ks = xs := by
  intro xs
  induction xs with
  | nil => intro ks _; simp [xorBytes]
  | cons x xs ih =>
    intro ks hlen
    cases ks with
    | nil => simp at hlen
    | cons k ks =>
      simp only [List.length_cons, Nat.succ_le_succ_iff] at hlen
      simp only [xorBytes, List.zipWith_cons_cons]
      rw [Nat.xor_assoc, Nat.xor_self, Nat.xor_zero]
      have := ih ks hlen
      simp only [xorBytes] at this
      rw [this]

end Crypto

/-- Error outcomes of the Encryption class.  The pre-checks throw before the
try block; everything raised inside decrypt's try block is caught and
re-thrown as `decryptionFailed` with the low-level message attached
("Decryption failed: " ++ inner in the source). -/
inductive CipherErr where
  | emptyInput : CipherErr
  | badMasterKey (receivedLen : Nat) : CipherErr
  | decryptionFailed (inner : String) : CipherErr
  deriving DecidableEq, Repr

namespace Encryption

/-- Length constant `keyLength` of the Encryption class (32 bytes). -/
def keyLength : Nat := 32

/-- Length constant `ivLength` of the Encryption class (16 bytes). -/
def ivLength : Nat := 16

/-- Length constant `saltLength` of the Encryption class (32 bytes). -/
def saltLength : Nat := 32

/-- Length constant `tagLength` of the Encryption class (16 bytes). -/
def tagLength : Nat := 16

/-- Encrypt: rejects empty plaintext, validates the master key length,
derives a key from (masterKey, salt), xors the UTF-8 plaintext with the GCM
keystream, computes the tag, and returns
base64(salt ++ iv ++ tag ++ ciphertext).  The fresh `crypto.randomBytes`
draws for the salt and the iv are passed explicitly. -/
def encrypt (plaintext : List Char) (masterKey : List Nat) (salt iv : List Nat) :
    Except CipherErr (List Char) :=
  if plaintext = [] then .error .emptyInput
  else if masterKey.length ≠ keyLength then .error (.badMasterKey masterKey.length)
  else
    let key := Crypto.pbkdf2 masterKey salt
    let pt := Utf8.utf8Encode plaintext
    let encrypted := Crypto.xorBytes pt (Crypto.keystream key iv pt.length)
    let tag := Crypto.authTag key iv encrypted
    .ok (Base64.base64Encode (salt ++ (iv ++ (tag ++ encrypted))))

/-- Slice taken by decrypt for the salt: `combined.subarray(0, 32)`. -/
def sliceSalt (combined : List Nat) : List Nat := combined.take saltLength

/-- Slice taken by decrypt for the iv: `combined.subarray(32, 48)`. -/
def sliceIv (combined : List Nat) : List Nat := (combined.drop saltLength).take ivLength

/-- Slice taken by decrypt for the tag: `combined.subarray(48, 64)`. -/
def sliceTag (combined : List Nat) : List Nat :=
  (combined.drop (saltLength + ivLength)).take tagLength

/-- Slice taken by decrypt for the ciphertext: `combined.subarray(64)`. -/
def sliceCiphertext (combined : List Nat) : List Nat :=
  combined.drop (saltLength + ivLength + tagLength)

/-- Decrypt: rejects empty input, validates the master key length,
base64-decodes, rejects blobs shorter than salt+iv+tag, slices out the four
components at fixed offsets, re-derives the key from the extracted salt, and
decrypts if and only if the recomputed GCM tag matches the stored one.  Every
failure inside the source's try block surfaces as `decryptionFailed`. -/
def decrypt (ciphertext : List Char) (masterKey : List Nat) :
    Except CipherErr (List Char) :=
  if ciphertext = [] then .error .emptyInput
  else if masterKey.length ≠ keyLength then .error (.badMasterKey masterKey.length)
  else
    let combined := Base64.base64Decode ciphertext
    if combined.length < saltLength + ivLength + tagLength then
      .error (.decryptionFailed "Invalid ciphertext format: too short")
    else
      let salt := sliceSalt combined
      let iv := sliceIv combined
      let tag := sliceTag combined
      let encrypted := sliceCiphertext combined
      let key := Crypto.pbkdf2 masterKey salt
      if Crypto.authTag key iv encrypted = tag then
        .ok (Utf8.utf8Decode
          (Crypto.xorBytes encrypted (Crypto.keystream key iv encrypted.length)))
      else .error (.decryptionFailed "Unsupported state or unable to authenticate data")

/-- Static generateMasterKey: base64 of a fresh 32-byte random draw. -/
def generateMasterKey (rnd : List Nat) : List Char := Base64.base64Encode rnd

/-- The ciphertext body produced by encrypt for given plaintext, master key
and randomness. -/
def ctBody (plaintext : List Char) (masterKey salt iv : List Nat) : List Nat :=
  Crypto.xorBytes (Utf8.utf8Encode plaintext)
    (Crypto.keystream (Crypto.pbkdf2 masterKey salt) iv (Utf8.utf8Encode plaintext).length)

/-- The tag embedded in the blob produced by encrypt. -/
def tagBody (plaintext : List Char) (masterKey salt iv : List Nat) : List Nat :=
  Crypto.authTag (Crypto.pbkdf2 masterKey salt) iv (ctBody plaintext masterKey salt iv)

theorem encrypt_eq_ok (plaintext : List Char) (masterKey salt iv : List Nat)
    (hp : plaintext ≠ []) (hmk : masterKey.length = 32) :
    encrypt plaintext masterKey salt iv =
      .ok (Base64.base64Encode
        (salt ++ (iv ++ (tagBody plaintext masterKey salt iv ++
          ctBody plaintext masterKey salt iv)))) := by
  unfold encrypt
  rw [if_neg hp]
  have h2 : ¬ (masterKey.length ≠ keyLength) := by rw [hmk]; simp [keyLength]
  rw [if_neg h2]
  rfl

end Encryption

namespace Encryption

theorem slice_concat (salt iv tag ct : List Nat)
    (hs : salt.length = 32) (hiv : iv.length = 16) (ht : tag.length = 16) :
    sliceSalt (salt ++ (iv ++ (tag ++ ct))) = salt ∧
    sliceIv (salt ++ (iv ++ (tag ++ ct))) = iv ∧
    sliceTag (salt ++ (iv ++ (tag ++ ct))) = tag ∧
    sliceCiphertext (salt ++ (iv ++ (tag ++ ct))) = ct := by
  have hdrop32 : (salt ++ (iv ++ (tag ++ ct))).drop 32 = iv ++ (tag ++ ct) :=
    List.drop_left' hs
  have hdrop48 : (salt ++ (iv ++ (tag ++ ct))).drop 48 = tag ++ ct := by
    have : (48 : Nat) = 32 + 16 := by omega
    rw [this, ← List.drop_drop, hdrop32]
    exact List.drop_left' hiv
  have hdrop64 : (salt ++ (iv ++ (tag ++ ct))).drop 64 = ct := by
    have : (64 : Nat) = 48 + 16 := by omega
    rw [this, ← List.drop_drop, hdrop48]
    exact List.drop_left' ht
  refine ⟨?_, ?_, ?_, ?_⟩
  · show (salt ++ (iv ++ (tag ++ ct))).take 32 = salt
    exact List.take_left' hs
  · show ((salt ++ (iv ++ (tag ++ ct))).drop 32).take 16 = iv
    rw [hdrop32]
    exact List.take_left' hiv
  · show ((salt ++ (iv ++ (tag ++ ct))).drop (32 + 16)).take 16 = tag
    have : (32 + 16 : Nat) = 48 := by omega
    rw [this, hdrop48]
    exact List.take_left' ht
  · show (salt ++ (iv ++ (tag ++ ct))).drop (32 + 16 + 16) = ct
    have : (32 + 16 + 16 : Nat) = 64 := by omega
    rw [this, hdrop64]

theorem ctBody_length (p : List Char) (mk salt iv : List Nat) :
    (ctBody p mk salt iv).length = (Utf8.utf8Encode p).length := by
  simp [ctBody, Crypto.xorBytes_length, Crypto.keystream_length]

theorem tagBody_length (p : List Char) (mk salt iv : List Nat) :
    (tagBody p mk salt iv).length = 16 := Crypto.authTag_length _ _ _

theorem combined_bytes (p : List Char) (mk salt iv : List Nat)
    (hsb : Bytes.allBytes salt) (hivb : Bytes.allBytes iv) :
    Bytes.allBytes (salt ++ (iv ++ (tagBody p mk salt iv ++ ctBody p mk salt iv))) := by
  intro b hb
  simp only [List.mem_append] at hb
  rcases hb with h | h | h | h
  · exact hsb b h
  · exact hivb b h
  · exact Crypto.authTag_bytes _ _ _ b h
  · exact Crypto.xorBytes_bytes _ _ (Utf8.utf8Encode_bytes p)
      (Crypto.keystream_bytes _ _ _) b h

theorem base64Encode_ne_nil (bs : List Nat) (h : bs ≠ []) :
    Base64.base64Encode bs ≠ [] := by
  intro hemp
  have hl := Base64.base64Encode_length bs
  rw [hemp] at hl
  simp only [List.length_nil] at hl
  have : bs.length ≠ 0 := fun h0 => h (List.length_eq_zero.mp h0)
  omega

/-- Structure of a successful decrypt on a blob produced by encrypt under the
same master key: all checks pass and the plaintext is recovered. -/
theorem decrypt_encrypt_ok (p : List Char) (mk salt iv : List Nat)
    (hp : p ≠ []) (hmk : mk.length = 32)
    (hs : salt.length = 32) (hiv : iv.length = 16)
    (hsb : Bytes.allBytes salt) (hivb : Bytes.allBytes iv) :
    decrypt (Base64.base64Encode
      (salt ++ (iv ++ (tagBody p mk salt iv ++ ctBody p mk salt iv)))) mk = .ok p := by
  set tag := tagBody p mk salt iv with htag
  set ct := ctBody p mk salt iv with hct
  set combined := salt ++ (iv ++ (tag ++ ct)) with hcomb
  have hcombbytes : Bytes.allBytes combined := combined_bytes p mk salt iv hsb hivb
  have hcombne : combined ≠ [] := by
    rw [hcomb]
    intro h
    have := congrArg List.length h
    simp only [List.length_append, List.length_nil] at this
    omega
  have hblobne : Base64.base64Encode combined ≠ [] := base64Encode_ne_nil _ hcombne
  have hdec : Base64.base64Decode (Base64.base64Encode combined) = combined :=
    Base64.base64_roundtrip combined hcombbytes
  have hcomblen : combined.length = 64 + ct.length := by
    rw [hcomb]
    simp only [List.length_append, hs, hiv]
    have := tagBody_length p mk salt iv
    rw [← htag] at this
    omega
  unfold decrypt
  rw [if_neg hblobne]
  have h2 : ¬ (mk.length ≠ keyLength) := by rw [hmk]; simp [keyLength]
  rw [if_neg h2]
  simp only [hdec]
  have hnotshort : ¬ (combined.length < saltLength + ivLength + tagLength) := by
    simp only [saltLength, ivLength, tagLength]
    omega
  rw [if_neg hnotshort]
  obtain ⟨e1, e2, e3, e4⟩ := slice_concat salt iv tag ct hs hiv
    (by rw [htag]; exact tagBody_length p mk salt iv)
  simp only [e1, e2, e3, e4]
  have htageq : Crypto.authTag (Crypto.pbkdf2 mk salt) iv ct = tag := by
    rw [htag, hct]
    rfl
  rw [if_pos htageq]
  have hctlen : ct.length = (Utf8.utf8Encode p).length := by
    rw [hct]; exact ctBody_length p mk salt iv
  rw [hctlen]
  have hxor : Crypto.xorBytes ct
      (Crypto.keystream (Crypto.pbkdf2 mk salt) iv (Utf8.utf8Encode p).length) =
      Utf8.utf8Encode p := by
    rw [hct]
    unfold ctBody
    apply Crypto.xorBytes_involution
    rw [Crypto.keystream_length]
  rw [hxor, Utf8.utf8_roundtrip]

end Encryption

namespace Encryption

/-- A blob whose base64 decoding is shorter than salt+iv+tag is rejected with
the wrapped decryption-failure error. -/
theorem decrypt_too_short (c : List Char) (mk : List Nat)
    (hc : c ≠ []) (hmk : mk.length = 32)
    (hshort : (Base64.base64Decode c).length < 64) :
    decrypt c mk = .error (.decryptionFailed "Invalid ciphertext format: too short") := by
  unfold decrypt
  rw [if_neg hc]
  have h2 : ¬ (mk.length ≠ keyLength) := by rw [hmk]; simp [keyLength]
  rw [if_neg h2]
  have : (Base64.base64Decode c).length < saltLength + ivLength + tagLength := by
    simp only [saltLength, ivLength, tagLength]
    omega
  rw [if_pos this]

/-- If the recomputed tag does not match the stored tag, decrypt fails with
the wrapped decryption-failure error (the model of `decipher.final()`
throwing on authentication failure). -/
theorem decrypt_tag_mismatch (c : List Char) (mk : List Nat)
    (hc : c ≠ []) (hmk : mk.length = 32)
    (hlong : ¬ (Base64.base64Decode c).length < 64)
    (hmis : Crypto.authTag (Crypto.pbkdf2 mk (sliceSalt (Base64.base64Decode c)))
        (sliceIv (Base64.base64Decode c)) (sliceCiphertext (Base64.base64Decode c)) ≠
        sliceTag (Base64.base64Decode c)) :
    decrypt c mk =
      .error (.decryptionFailed "Unsupported state or unable to authenticate data") := by
  unfold decrypt
  rw [if_neg hc]
  have h2 : ¬ (mk.length ≠ keyLength) := by rw [hmk]; simp [keyLength]
  rw [if_neg h2]
  have hlong' : ¬ ((Base64.base64Decode c).length < saltLength + ivLength + tagLength) := by
    simp only [saltLength, ivLength, tagLength]
    omega
  rw [if_neg hlong']
  rw [if_neg hmis]

/-- Decrypt succeeds only when the recomputed tag equals the stored tag, and
then returns the full decoded plaintext; every failure after the input
pre-checks is the single wrapped decryption-failure error. -/
theorem decrypt_cases (c : List Char) (mk : List Nat) :
    (∀ out, decrypt c mk = .ok out →
      Crypto.authTag (Crypto.pbkdf2 mk (sliceSalt (Base64.base64Decode c)))
        (sliceIv (Base64.base64Decode c)) (sliceCiphertext (Base64.base64Decode c)) =
        sliceTag (Base64.base64Decode c) ∧
      out = Utf8.utf8Decode (Crypto.xorBytes (sliceCiphertext (Base64.base64Decode c))
        (Crypto.keystream (Crypto.pbkdf2 mk (sliceSalt (Base64.base64Decode c)))
          (sliceIv (Base64.base64Decode c))
          (sliceCiphertext (Base64.base64Decode c)).length))) ∧
    (c ≠ [] → mk.length = 32 → ∀ e, decrypt c mk = .error e →
      ∃ inner, e = .decryptionFailed inner) := by
  constructor
  · intro out hok
    unfold decrypt at hok
    by_cases hc : c = []
    · rw [if_pos hc] at hok
      exact absurd hok (by simp)
    · rw [if_neg hc] at hok
      by_cases hmk : mk.length ≠ keyLength
      · rw [if_pos hmk] at hok
        exact absurd hok (by simp)
      · rw [if_neg hmk] at hok
        by_cases hshort : (Base64.base64Decode c).length < saltLength + ivLength + tagLength
        · rw [if_pos hshort] at hok
          exact absurd hok (by simp)
        · rw [if_neg hshort] at hok
          by_cases htag : Crypto.authTag (Crypto.pbkdf2 mk (sliceSalt (Base64.base64Decode c)))
              (sliceIv (Base64.base64Decode c)) (sliceCiphertext (Base64.base64Decode c)) =
              sliceTag (Base64.base64Decode c)
          · rw [if_pos htag] at hok
            simp only [Except.ok.injEq] at hok
            exact ⟨htag, hok.symm⟩
          · rw [if_neg htag] at hok
            exact absurd hok (by simp)
  · intro hc hmk e herr
    unfold decrypt at herr
    rw [if_neg hc] at herr
    have h2 : ¬ (mk.length ≠ keyLength) := by rw [hmk]; simp [keyLength]
    rw [if_neg h2] at herr
    by_cases hshort : (Base64.base64Decode c).length < saltLength + ivLength + tagLength
    · rw [if_pos hshort] at herr
      simp only [Except.error.injEq] at herr
      exact ⟨_, herr.symm⟩
    · rw [if_neg hshort] at herr
      by_cases htag : Crypto.authTag (Crypto.pbkdf2 mk (sliceSalt (Base64.base64Decode c)))
          (sliceIv (Base64.base64Decode c)) (sliceCiphertext (Base64.base64Decode c)) =
          sliceTag (Base64.base64Decode c)
      · rw [if_pos htag] at herr
        exact absurd herr (by simp)
      · rw [if_neg htag] at herr
        simp only [Except.error.injEq] at herr
        exact ⟨_, herr.symm⟩

end Encryption

/-- One stored credential record (KeyRecord in stores/types.ts). -/
structure KeyRecord where
  userId : List Char
  provider : List Char
  encryptedKey : List Char
  createdAt : Nat
  deriving DecidableEq, Repr, Inhabited

namespace MemoryStore

/-- Map key used by MemoryStore: the concatenation `userId + ":" + provider`. -/
def skey (userId provider : List Char) : List Char := userId ++ ':' :: provider

/-- State of the in-memory store: the entries of the underlying JS Map in
insertion order, keyed by `skey`. -/
abbrev Store := List (List Char × KeyRecord)

/-- Map.set semantics: replace the value of an existing key in place,
otherwise append a new entry. -/
def set : Store → KeyRecord → Store
  | [], r => [(skey r.userId r.provider, r)]
  | (k, r0) :: rest, r =>
      if k = skey r.userId r.provider then (k, r) :: rest
      else (k, r0) :: set rest r

/-- Map.get, returning the explicit not-found sentinel as `none`. -/
def get (st : Store) (userId provider : List Char) : Option KeyRecord :=
  (st.find? (fun e => decide (e.1 = skey userId provider))).map (fun e => e.2)

/-- Map.delete: removes the entry and reports whether one existed. -/
def delete : Store → List Char → List Char → Store × Bool
  | [], _, _ => ([], false)
  | (k, r) :: rest, u, p =>
      if k = skey u p then (rest, true)
      else
        let res := delete rest u p
        ((k, r) :: res.1, res.2)

/-- Map.has: existence check. -/
def has (st : Store) (u p : List Char) : Bool :=
  st.any (fun e => decide (e.1 = skey u p))

/-- Number of live entries for a map key. -/
def countKey (st : Store) (k : List Char) : Nat :=
  st.countP (fun e => decide (e.1 = k))

/-- Well-formedness: a JS Map never holds two entries with the same key. -/
def WF (st : Store) : Prop := (st.map Prod.fst).Nodup

end MemoryStore

/-- Validation / orchestration errors thrown by the BYOK class. -/
inductive BYOKErr where
  | notConfigured : BYOKErr
  | userIdRequired : BYOKErr
  | providerRequired : BYOKErr
  | apiKeyRequired : BYOKErr
  | unsupportedProvider : BYOKErr
  | invalidApiKey : BYOKErr
  | cipher (e : CipherErr) : BYOKErr
  deriving DecidableEq, Repr

/-- Errors surfaced by `use(userId).chat(...)`. -/
inductive ChatErr where
  | notConfigured : ChatErr
  | unsupportedProvider : ChatErr
  | noKeyFound : ChatErr
  | decryptFailed (e : CipherErr) : ChatErr
  | promptRequired : ChatErr
  deriving DecidableEq, Repr

namespace BYOK

/-- The `masterKey` configuration value: a JS string or a Buffer. -/
inductive MasterKeyInput where
  | buf (bytes : List Nat) : MasterKeyInput
  | str (text : List Char) : MasterKeyInput
  deriving DecidableEq, Repr

/-- JS falsiness of `config.masterKey`: only the empty string is falsy (a
Buffer is an object and always truthy). -/
def isFalsyKey : MasterKeyInput → Bool
  | .buf _ => false
  | .str s => decide (s = [])

/-- BYOK.normalizeMasterKey: a Buffer is returned as-is; a string is first
base64-decoded and used if that yields exactly 32 bytes, otherwise its UTF-8
bytes are used. -/
def normalizeMasterKey : MasterKeyInput → List Nat
  | .buf b => b
  | .str s =>
      let base64Buffer := Base64.base64Decode s
      if base64Buffer.length = 32 then base64Buffer
      else Utf8.utf8Encode s

/-- The BYOK constructor: fails when no master key is supplied or when the
normalized key is not exactly 32 bytes; on success the instance holds the
normalized 32-byte key. -/
def construct (masterKey : MasterKeyInput) : Except String (List Nat) :=
  if isFalsyKey masterKey then .error "masterKey is required in BYOK configuration"
  else if (normalizeMasterKey masterKey).length ≠ 32 then
    .error "Master key must be exactly 32 bytes (256 bits)."
  else .ok (normalizeMasterKey masterKey)

/-- Input of registerKey. -/
structure RegisterKeyInput where
  userId : List Char
  provider : List Char
  apiKey : List Char
  deriving DecidableEq, Repr

/-- The sole supported provider identifier. -/
def geminiStr : List Char := "gemini".toList

/-- Character class of the Gemini key pattern: ASCII letters, digits,
underscore, hyphen. -/
def isKeyChar (c : Char) : Bool :=
  ('a' ≤ c && c ≤ 'z') || ('A' ≤ c && c ≤ 'Z') || ('0' ≤ c && c ≤ '9') ||
    c = '_' || c = '-'

/-- Test of the Gemini apiKey pattern from registerKey: the case-sensitive
prefix AI followed by at least 10 characters of the class above, anchored at
both ends. -/
def geminiKeyValid (apiKey : List Char) : Bool :=
  match apiKey with
  | 'A' :: 'I' :: rest => decide (10 ≤ rest.length) && rest.all isKeyChar
  | _ => false

/-- BYOK.registerKey: ensureValid, then the four validation checks in source
order, then encrypt and store with `createdAt` set to the current time.  The
`crypto.randomBytes` draws consumed by encrypt and the clock reading are
passed explicitly. -/
def registerKey (st : MemoryStore.Store) (mk : List Nat) (input : RegisterKeyInput)
    (salt iv : List Nat) (now : Nat) : Except BYOKErr MemoryStore.Store :=
  if mk.length ≠ 32 then .error .notConfigured
  else if input.userId = [] then .error .userIdRequired
  else if input.provider = [] then .error .providerRequired
  else if input.apiKey = [] then .error .apiKeyRequired
  else if input.provider ≠ geminiStr then .error .unsupportedProvider
  else if ¬ geminiKeyValid input.apiKey then .error .invalidApiKey
  else
    match Encryption.encrypt input.apiKey mk salt iv with
    | .error e => .error (.cipher e)
    | .ok encryptedKey =>
        .ok (MemoryStore.set st
          ⟨input.userId, input.provider, encryptedKey, now⟩)

/-- BYOK.deleteKey: ensureValid, then a pass-through to the store. -/
def deleteKey (st : MemoryStore.Store) (mk : List Nat) (u p : List Char) :
    Except BYOKErr (MemoryStore.Store × Bool) :=
  if mk.length ≠ 32 then .error .notConfigured
  else .ok (MemoryStore.delete st u p)

/-- BYOK.hasKey: ensureValid, then a pass-through to the store. -/
def hasKey (st : MemoryStore.Store) (mk : List Nat) (u p : List Char) :
    Except BYOKErr Bool :=
  if mk.length ≠ 32 then .error .notConfigured
  else .ok (MemoryStore.has st u p)

/-- The default model id used by GeminiProvider. -/
def defaultModel : List Char := "gemini-1.5-flash".toList

/-- The chat operation of the handle returned by `use(userId)`: defaults the
provider to gemini (JS falsiness: an omitted or empty provider defaults),
rejects any other provider, looks up the record, decrypts, and invokes the
provider adapter on the decrypted secret.  The adapter is an oracle
parameter `adapter apiKey prompt modelId` standing for the outbound Gemini
call. -/
def chat (st : MemoryStore.Store) (mk : List Nat) (userId : List Char)
    (provider : Option (List Char)) (prompt : List Char) (model : Option (List Char))
    (adapter : List Char → List Char → List Char → List Char) :
    Except ChatErr (List Char) :=
  if mk.length ≠ 32 then .error .notConfigured
  else
    let prov := match provider with
      | none => geminiStr
      | some p => if p = [] then geminiStr else p
    if prov ≠ geminiStr then .error .unsupportedProvider
    else
      match MemoryStore.get st userId prov with
      | none => .error .noKeyFound
      | some record =>
          match Encryption.decrypt record.encryptedKey mk with
          | .error e => .error (.decryptFailed e)
          | .ok apiKey =>
              if prompt = [] then .error .promptRequired
              else
                let modelId := match model with
                  | none => defaultModel
                  | some m => if m = [] then defaultModel else m
                .ok (adapter apiKey prompt modelId)

end BYOK


namespace MemoryStore

/-- Two identity keys with the same provider collide in the Map only when the
user ids are equal. -/
theorem skey_inj_user (u1 u2 p : List Char) (h : skey u1 p = skey u2 p) : u1 = u2 :=
  List.append_cancel_right h

theorem countKey_eq_zero_of_not_mem (st : Store) (k : List Char)
    (h : k ∉ st.map Prod.fst) : countKey st k = 0 := by
  rw [countKey, List.countP_eq_zero]
  intro e he
  simp only [decide_eq_true_eq]
  intro hek
  apply h
  rw [← hek]
  exact List.mem_map_of_mem Prod.fst he

theorem find?_eq_none_of_not_mem (st : Store) (k : List Char)
    (h : k ∉ st.map Prod.fst) :
    List.find? (fun e => decide (e.1 = k)) st = none := by
  rw [List.find?_eq_none]
  intro e he
  simp only [decide_eq_true_eq]
  intro hek
  apply h
  rw [← hek]
  exact List.mem_map_of_mem Prod.fst he

theorem get_set_same (st : Store) (r : KeyRecord) :
    get (set st r) r.userId r.provider = some r := by
  induction st with
  | nil =>
    rw [set, get, List.find?_cons_of_pos _ (by simp)]
    rfl
  | cons e rest ih =>
    obtain ⟨k, r0⟩ := e
    by_cases hk : k = skey r.userId r.provider
    · rw [set, if_pos hk, get, List.find?_cons_of_pos _ (by simp [hk])]
      rfl
    · rw [set, if_neg hk, get, List.find?_cons_of_neg _ (by simp [hk])]
      exact ih

theorem get_set_other (st : Store) (r : KeyRecord) (u p : List Char)
    (h : skey u p ≠ skey r.userId r.provider) :
    get (set st r) u p = get st u p := by
  induction st with
  | nil =>
    rw [set, get, List.find?_cons_of_neg _ (by simpa using fun he => h he.symm)]
    rfl
  | cons e rest ih =>
    obtain ⟨k, r0⟩ := e
    by_cases hk : k = skey r.userId r.provider
    · have hne : ¬ ((k, r0).1 = skey u p) := by
        simp only []
        rw [hk]
        exact fun he => h he.symm
      rw [set, if_pos hk, get, List.find?_cons_of_neg _ (by simpa using hne),
        get, List.find?_cons_of_neg _ (by simpa using hne)]
    · by_cases hku : k = skey u p
      · rw [set, if_neg hk, get, List.find?_cons_of_pos _ (by simp [hku]),
          get, List.find?_cons_of_pos _ (by simp [hku])]
      · rw [set, if_neg hk, get, List.find?_cons_of_neg _ (by simp [hku]),
          get, List.find?_cons_of_neg _ (by simp [hku])]
        exact ih

theorem has_eq_isSome_get (st : Store) (u p : List Char) :
    has st u p = (get st u p).isSome := by
  induction st with
  | nil => rfl
  | cons e rest ih =>
    obtain ⟨k, r0⟩ := e
    by_cases hk : k = skey u p
    · rw [has, List.any_cons, get, List.find?_cons_of_pos _ (by simp [hk])]
      simp [hk]
    · rw [has, List.any_cons, get, List.find?_cons_of_neg _ (by simp [hk])]
      have hf : (decide ((k, r0).1 = skey u p)) = false := by simp [hk]
      rw [hf]
      simp only [Bool.false_or]
      exact ih

theorem set_map_fst (st : Store) (r : KeyRecord) :
    (set st r).map Prod.fst = (st.map Prod.fst) ++
      (if skey r.userId r.provider ∈ st.map Prod.fst then []
       else [skey r.userId r.provider]) := by
  induction st with
  | nil => rw [set]; simp
  | cons e rest ih =>
    obtain ⟨k, r0⟩ := e
    by_cases hk : k = skey r.userId r.provider
    · rw [set, if_pos hk]
      have hmem : skey r.userId r.provider ∈ ((k, r0) :: rest).map Prod.fst := by
        simp [hk]
      rw [if_pos hmem]
      simp [hk]
    · rw [set, if_neg hk, List.map_cons, List.map_cons, ih]
      have hne : ¬ (skey r.userId r.provider = k) := fun h => hk h.symm
      by_cases hmem : skey r.userId r.provider ∈ rest.map Prod.fst
      · rw [if_pos hmem, if_pos (by simp [hmem])]
        simp
      · rw [if_neg hmem, if_neg (by simp [hne, hmem])]
        simp

theorem WF_set (st : Store) (r : KeyRecord) (hwf : WF st) : WF (set st r) := by
  rw [WF, set_map_fst]
  by_cases hmem : skey r.userId r.provider ∈ st.map Prod.fst
  · rw [if_pos hmem]
    simpa using hwf
  · rw [if_neg hmem]
    rw [List.nodup_append]
    exact ⟨hwf, List.nodup_singleton _, by simpa using hmem⟩

theorem countKey_set_self (st : Store) (r : KeyRecord) (hwf : WF st) :
    countKey (set st r) (skey r.userId r.provider) = 1 := by
  induction st with
  | nil =>
    rw [set, countKey, List.countP_cons_of_pos _ _ (by simp)]
    rfl
  | cons e rest ih =>
    obtain ⟨k, r0⟩ := e
    have hwf' : WF rest := (List.nodup_cons.mp hwf).2
    have hnotin : k ∉ rest.map Prod.fst := (List.nodup_cons.mp hwf).1
    by_cases hk : k = skey r.userId r.provider
    · rw [set, if_pos hk, countKey, List.countP_cons_of_pos _ _ (by simp [hk])]
      have hzero : countKey rest (skey r.userId r.provider) = 0 := by
        apply countKey_eq_zero_of_not_mem
        rw [← hk]
        exact hnotin
      rw [countKey] at hzero
      rw [hzero]
    · rw [set, if_neg hk, countKey, List.countP_cons_of_neg _ _ (by simp [hk])]
      rw [countKey] at ih
      exact ih hwf'

theorem get_delete_same (st : Store) (u p : List Char) (hwf : WF st) :
    get (delete st u p).1 u p = none := by
  induction st with
  | nil => rfl
  | cons e rest ih =>
    obtain ⟨k, r0⟩ := e
    have hwf' : WF rest := (List.nodup_cons.mp hwf).2
    have hnotin : k ∉ rest.map Prod.fst := (List.nodup_cons.mp hwf).1
    by_cases hk : k = skey u p
    · rw [delete, if_pos hk, get, find?_eq_none_of_not_mem]
      · rfl
      · rw [← hk]
        exact hnotin
    · rw [delete, if_neg hk]
      show get ((k, r0) :: (delete rest u p).1) u p = none
      rw [get, List.find?_cons_of_neg _ (by simp [hk])]
      exact ih hwf'

theorem delete_snd_eq_has (st : Store) (u p : List Char) :
    (delete st u p).2 = has st u p := by
  induction st with
  | nil => rfl
  | cons e rest ih =>
    obtain ⟨k, r0⟩ := e
    by_cases hk : k = skey u p
    · rw [delete, if_pos hk, has, List.any_cons]
      simp [hk]
    · rw [delete, if_neg hk, has, List.any_cons]
      have hf : (decide ((k, r0).1 = skey u p)) = false := by simp [hk]
      rw [hf]
      simp only [Bool.false_or]
      show (delete rest u p).2 = has rest u p
      exact ih

theorem get_delete_other (st : Store) (u p u2 p2 : List Char)
    (h : skey u2 p2 ≠ skey u p) :
    get (delete st u p).1 u2 p2 = get st u2 p2 := by
  induction st with
  | nil => rfl
  | cons e rest ih =>
    obtain ⟨k, r0⟩ := e
    by_cases hk : k = skey u p
    · have hne : ¬ (k = skey u2 p2) := by
        rw [hk]
        exact fun he => h he.symm
      rw [delete, if_pos hk]
      show get rest u2 p2 = get ((k, r0) :: rest) u2 p2
      symm
      rw [get, List.find?_cons_of_neg _ (by simp [hne])]
      rfl
    · rw [delete, if_neg hk]
      by_cases hku : k = skey u2 p2
      · show get ((k, r0) :: (delete rest u p).1) u2 p2 = _
        rw [get, List.find?_cons_of_pos _ (by simp [hku]),
          get, List.find?_cons_of_pos _ (by simp [hku])]
      · show get ((k, r0) :: (delete rest u p).1) u2 p2 = _
        rw [get, List.find?_cons_of_neg _ (by simp [hku]),
          get, List.find?_cons_of_neg _ (by simp [hku])]
        exact ih

end MemoryStore

namespace Encryption

theorem encrypt_ok_inv (p : List Char) (mk salt iv : List Nat) (blob : List Char)
    (h : encrypt p mk salt iv = .ok blob) :
    p ≠ [] ∧ mk.length = 32 ∧
      blob = Base64.base64Encode
        (salt ++ (iv ++ (tagBody p mk salt iv ++ ctBody p mk salt iv))) := by
  by_cases hp : p = []
  · rw [encrypt, if_pos hp] at h
    exact absurd h (by simp)
  · by_cases hmk : mk.length = 32
    · refine ⟨hp, hmk, ?_⟩
      rw [encrypt_eq_ok p mk salt iv hp hmk] at h
      simp only [Except.ok.injEq] at h
      exact h.symm
    · rw [encrypt, if_neg hp, if_pos (by simp [keyLength, hmk])] at h
      exact absurd h (by simp)

/-- Blobs produced with different randomness differ: the salt and iv are
embedded verbatim at fixed offsets, and base64 decoding is a left inverse of
encoding. -/
theorem encrypt_ne_of_rand_ne (p1 p2 : List Char) (mk salt1 iv1 salt2 iv2 : List Nat)
    (blob1 blob2 : List Char)
    (h1 : encrypt p1 mk salt1 iv1 = .ok blob1)
    (h2 : encrypt p2 mk salt2 iv2 = .ok blob2)
    (hs1 : salt1.length = 32) (hiv1 : iv1.length = 16)
    (hs2 : salt2.length = 32) (hiv2 : iv2.length = 16)
    (hb1 : Bytes.allBytes salt1) (hbi1 : Bytes.allBytes iv1)
    (hb2 : Bytes.allBytes salt2) (hbi2 : Bytes.allBytes iv2)
    (hne : salt1 ≠ salt2 ∨ iv1 ≠ iv2) :
    blob1 ≠ blob2 := by
  obtain ⟨-, -, he1⟩ := encrypt_ok_inv p1 mk salt1 iv1 blob1 h1
  obtain ⟨-, -, he2⟩ := encrypt_ok_inv p2 mk salt2 iv2 blob2 h2
  intro heq
  have hdec1 : Base64.base64Decode blob1 =
      salt1 ++ (iv1 ++ (tagBody p1 mk salt1 iv1 ++ ctBody p1 mk salt1 iv1)) := by
    rw [he1]
    exact Base64.base64_roundtrip _ (combined_bytes p1 mk salt1 iv1 hb1 hbi1)
  have hdec2 : Base64.base64Decode blob2 =
      salt2 ++ (iv2 ++ (tagBody p2 mk salt2 iv2 ++ ctBody p2 mk salt2 iv2)) := by
    rw [he2]
    exact Base64.base64_roundtrip _ (combined_bytes p2 mk salt2 iv2 hb2 hbi2)
  have hcomb : salt1 ++ (iv1 ++ (tagBody p1 mk salt1 iv1 ++ ctBody p1 mk salt1 iv1)) =
      salt2 ++ (iv2 ++ (tagBody p2 mk salt2 iv2 ++ ctBody p2 mk salt2 iv2)) := by
    rw [← hdec1, ← hdec2, heq]
  obtain ⟨e11, e12, -, -⟩ := slice_concat salt1 iv1 _ _ hs1 hiv1 (tagBody_length p1 mk salt1 iv1)
  obtain ⟨e21, e22, -, -⟩ := slice_concat salt2 iv2 _ _ hs2 hiv2 (tagBody_length p2 mk salt2 iv2)
  have hsalt : salt1 = salt2 := by
    rw [← e11, ← e21, hcomb]
  have hiv : iv1 = iv2 := by
    rw [← e12, ← e22, hcomb]
  rcases hne with h | h
  · exact h hsalt
  · exact h hiv

end Encryption

namespace BYOK

theorem registerKey_ok_inv (st : MemoryStore.Store) (mk : List Nat)
    (input : RegisterKeyInput) (salt iv : List Nat) (now : Nat)
    (st' : MemoryStore.Store)
    (h : registerKey st mk input salt iv now = .ok st') :
    mk.length = 32 ∧ input.userId ≠ [] ∧ input.provider = geminiStr ∧
      geminiKeyValid input.apiKey = true ∧
      ∃ enc, Encryption.encrypt input.apiKey mk salt iv = .ok enc ∧
        st' = MemoryStore.set st ⟨input.userId, input.provider, enc, now⟩ := by
  by_cases hmk : mk.length ≠ 32
  · rw [registerKey, if_pos hmk] at h
    exact absurd h (by simp)
  · by_cases h1 : input.userId = []
    · rw [registerKey, if_neg hmk, if_pos h1] at h
      exact absurd h (by simp)
    · by_cases h2 : input.provider = []
      · rw [registerKey, if_neg hmk, if_neg h1, if_pos h2] at h
        exact absurd h (by simp)
      · by_cases h3 : input.apiKey = []
        · rw [registerKey, if_neg hmk, if_neg h1, if_neg h2, if_pos h3] at h
          exact absurd h (by simp)
        · by_cases h4 : input.provider ≠ geminiStr
          · rw [registerKey, if_neg hmk, if_neg h1, if_neg h2, if_neg h3, if_pos h4] at h
            exact absurd h (by simp)
          · by_cases h5 : geminiKeyValid input.apiKey = true
            · rw [registerKey, if_neg hmk, if_neg h1, if_neg h2, if_neg h3, if_neg h4,
                if_neg (by simp [h5])] at h
              refine ⟨by omega, h1, by simpa using h4, h5, ?_⟩
              rcases henc : Encryption.encrypt input.apiKey mk salt iv with e | enc
              · rw [henc] at h
                exact absurd h (by simp)
              · rw [henc] at h
                simp only [Except.ok.injEq] at h
                exact ⟨enc, rfl, h.symm⟩
            · rw [registerKey, if_neg hmk, if_neg h1, if_neg h2, if_neg h3, if_neg h4,
                if_pos (by simp [h5])] at h
              exact absurd h (by simp)

end BYOK

namespace Utf8

theorem toNat_ofNat_of_valid (n : Nat) (h : n.isValidChar) : (Char.ofNat n).toNat = n := by
  unfold Char.ofNat
  rw [dif_pos h]
  rfl

/-- On ASCII strings the UTF-8 encoding is the list of code points. -/
theorem utf8Encode_ascii (s : List Char) (h : ∀ c ∈ s, c.toNat < 128) :
    utf8Encode s = s.map Char.toNat := by
  induction s with
  | nil => rfl
  | cons c cs ih =>
    have hc : c.toNat < 128 := h c (by simp)
    have he : utf8EncodeChar c = [c.toNat] := by
      unfold utf8EncodeChar
      rw [if_pos hc]
    rw [utf8Encode, he, List.map_cons, List.singleton_append,
      ih (fun x hx => h x (by simp [hx]))]

end Utf8

namespace BYOK

/-- The pattern accepted by geminiKeyValid, spelled out: the two-character
case-sensitive prefix AI, then at least 10 characters of the allowed class. -/
theorem geminiKeyValid_iff (apiKey : List Char) :
    geminiKeyValid apiKey = true ↔
      ∃ rest, apiKey = 'A' :: 'I' :: rest ∧ 10 ≤ rest.length ∧
        ∀ c ∈ rest, isKeyChar c = true := by
  constructor
  · intro h
    unfold geminiKeyValid at h
    split at h
    next rest =>
      simp only [Bool.and_eq_true, decide_eq_true_eq, List.all_eq_true] at h
      exact ⟨rest, rfl, h.1, h.2⟩
    next =>
      exact absurd h (by simp)
  · rintro ⟨rest, rfl, hlen, hall⟩
    rw [geminiKeyValid]
    simp only [Bool.and_eq_true, decide_eq_true_eq, List.all_eq_true]
    exact ⟨hlen, hall⟩

end BYOK

/-- Concrete example inputs used to instantiate the claim theorems. -/
def mkA : List Nat := List.replicate 32 7

/-- A second, different 32-byte master key. -/
def mkB : List Nat := List.replicate 32 9

/-- A concrete 32-byte salt draw. -/
def saltA : List Nat := List.replicate 32 1

/-- A concrete 16-byte iv draw. -/
def ivA : List Nat := List.replicate 16 2

/-- A second 32-byte salt draw. -/
def saltB : List Nat := List.replicate 32 3

/-- A second 16-byte iv draw. -/
def ivB : List Nat := List.replicate 16 4

/-- A concrete plaintext. -/
def ptA : List Char := 'h' :: 'i' :: []

/-- The blob produced by encrypting ptA under mkA with draws saltA, ivA. -/
def blobA : List Char := (Encryption.encrypt ptA mkA saltA ivA).toOption.getD []

/-- The blob produced by encrypting ptA under mkA with draws saltB, ivB. -/
def blobB : List Char := (Encryption.encrypt ptA mkA saltB ivB).toOption.getD []

/-- C1: for every master key that normalizes to exactly 32 bytes and every
non-empty plaintext p, decrypting the blob returned by encrypt under the same
master key returns p (the salt and iv are encrypt's two fresh
`crypto.randomBytes` draws, passed explicitly; randomBytes always returns the
requested number of bytes). -/
theorem claim_C1_roundtrip (p : List Char) (mk salt iv : List Nat) (blob : List Char)
    (hp : p ≠ []) (hmk : mk.length = 32) (hs : salt.length = 32) (hiv : iv.length = 16)
    (hsb : Bytes.allBytes salt) (hivb : Bytes.allBytes iv)
    (henc : Encryption.encrypt p mk salt iv = .ok blob) :
    Encryption.decrypt blob mk = .ok p := by
  obtain ⟨-, -, hb⟩ := Encryption.encrypt_ok_inv p mk salt iv blob henc
  rw [hb]
  exact Encryption.decrypt_encrypt_ok p mk salt iv hp hmk hs hiv hsb hivb

theorem claim_C1_roundtrip_witness :
    Encryption.decrypt blobA mkA = .ok ptA :=
  claim_C1_roundtrip ptA mkA saltA ivA blobA (by decide) (by decide)
    (by decide) (by decide) (by decide) (by decide) rfl

/-- C7: the string returned by encrypt is base64 text decoding to the
fixed-order concatenation salt(32) || iv(16) || tag(16) || ciphertext, and
decrypt slices the decoded bytes at exactly offsets 0, 32, 48, 64 in that
order. -/
theorem claim_C7_wire_format :
    (∀ p : List Char, ∀ mk salt iv : List Nat, ∀ blob : List Char,
      mk.length = 32 → salt.length = 32 → iv.length = 16 →
      Bytes.allBytes salt → Bytes.allBytes iv →
      Encryption.encrypt p mk salt iv = .ok blob →
      Base64.base64Decode blob =
        salt ++ (iv ++ (Encryption.tagBody p mk salt iv ++
          Encryption.ctBody p mk salt iv)) ∧
      (Encryption.tagBody p mk salt iv).length = 16) ∧
    (∀ salt iv tag ct : List Nat, salt.length = 32 → iv.length = 16 → tag.length = 16 →
      Encryption.sliceSalt (salt ++ (iv ++ (tag ++ ct))) = salt ∧
      Encryption.sliceIv (salt ++ (iv ++ (tag ++ ct))) = iv ∧
      Encryption.sliceTag (salt ++ (iv ++ (tag ++ ct))) = tag ∧
      Encryption.sliceCiphertext (salt ++ (iv ++ (tag ++ ct))) = ct) := by
  constructor
  · intro p mk salt iv blob hmk hs hiv hsb hivb henc
    obtain ⟨-, -, hb⟩ := Encryption.encrypt_ok_inv p mk salt iv blob henc
    refine ⟨?_, Encryption.tagBody_length p mk salt iv⟩
    rw [hb]
    exact Base64.base64_roundtrip _ (Encryption.combined_bytes p mk salt iv hsb hivb)
  · intro salt iv tag ct hs hiv ht
    exact Encryption.slice_concat salt iv tag ct hs hiv ht

theorem claim_C7_wire_format_witness :
    Base64.base64Decode blobA =
      saltA ++ (ivA ++ (Encryption.tagBody ptA mkA saltA ivA ++
        Encryption.ctBody ptA mkA saltA ivA)) ∧
    Encryption.sliceSalt (saltA ++ (ivA ++ (Encryption.tagBody ptA mkA saltA ivA ++
      Encryption.ctBody ptA mkA saltA ivA))) = saltA :=
  ⟨(claim_C7_wire_format.1 ptA mkA saltA ivA blobA (by decide) (by decide) (by decide)
      (by decide) (by decide) rfl).1,
   (claim_C7_wire_format.2 saltA ivA (Encryption.tagBody ptA mkA saltA ivA)
      (Encryption.ctBody ptA mkA saltA ivA) (by decide) (by decide)
      (Encryption.tagBody_length ptA mkA saltA ivA)).1⟩

/-- C8: two encryptions of the same plaintext under the same master key with
distinct randomness draws (fresh salt or fresh iv) produce different blobs,
so re-registering the same secret does not produce an equal stored
ciphertext. -/
theorem claim_C8_nondeterminism (p : List Char) (mk salt1 iv1 salt2 iv2 : List Nat)
    (blob1 blob2 : List Char)
    (h1 : Encryption.encrypt p mk salt1 iv1 = .ok blob1)
    (h2 : Encryption.encrypt p mk salt2 iv2 = .ok blob2)
    (hs1 : salt1.length = 32) (hiv1 : iv1.length = 16)
    (hs2 : salt2.length = 32) (hiv2 : iv2.length = 16)
    (hb1 : Bytes.allBytes salt1) (hbi1 : Bytes.allBytes iv1)
    (hb2 : Bytes.allBytes salt2) (hbi2 : Bytes.allBytes iv2)
    (hne : salt1 ≠ salt2 ∨ iv1 ≠ iv2) :
    blob1 ≠ blob2 :=
  Encryption.encrypt_ne_of_rand_ne p p mk salt1 iv1 salt2 iv2 blob1 blob2 h1 h2
    hs1 hiv1 hs2 hiv2 hb1 hbi1 hb2 hbi2 hne

theorem claim_C8_nondeterminism_witness : blobA ≠ blobB :=
  claim_C8_nondeterminism ptA mkA saltA ivA saltB ivB blobA blobB rfl rfl
    (by decide) (by decide) (by decide) (by decide) (by decide) (by decide)
    (by decide) (by decide) (Or.inl (by decide))

/-- C10: the blob base64-decodes to exactly 64 + n bytes, where n is the
UTF-8 byte length of the plaintext (the GCM ciphertext has the same length
as the plaintext), so a stored blob's length reveals the secret's length. -/
theorem claim_C10_blob_length (p : List Char) (mk salt iv : List Nat) (blob : List Char)
    (hmk : mk.length = 32) (hs : salt.length = 32) (hiv : iv.length = 16)
    (hsb : Bytes.allBytes salt) (hivb : Bytes.allBytes iv)
    (henc : Encryption.encrypt p mk salt iv = .ok blob) :
    (Base64.base64Decode blob).length = 64 + (Utf8.utf8Encode p).length := by
  obtain ⟨-, -, hb⟩ := Encryption.encrypt_ok_inv p mk salt iv blob henc
  rw [hb, Base64.base64_roundtrip _ (Encryption.combined_bytes p mk salt iv hsb hivb)]
  simp only [List.length_append, hs, hiv, Encryption.tagBody_length,
    Encryption.ctBody_length]
  omega

theorem claim_C10_blob_length_witness :
    (Base64.base64Decode blobA).length = 64 + (Utf8.utf8Encode ptA).length :=
  claim_C10_blob_length ptA mkA saltA ivA blobA (by decide) (by decide) (by decide)
    (by decide) (by decide) rfl

/-- C2: decrypt never returns altered or partial plaintext.  It throws the
single wrapped decryption-failure error whenever (a) the blob base64-decodes
to fewer than 64 bytes, (b) the authentication tag recomputed from the
received bytes does not match the stored tag — which is how any byte
alteration is detected, and (c) a blob encrypted under k1 is decrypted under
a master key k2 whose derived key authenticates differently (the GCM
tag-collision-freeness assumption, stated pointwise).  Moreover a successful
decrypt implies the tag matched exactly and the full plaintext is returned,
and every error after the input pre-checks is the wrapped decryption
failure. -/
theorem claim_C2_decrypt_failures :
    (∀ c : List Char, ∀ mk : List Nat, c ≠ [] → mk.length = 32 →
      (Base64.base64Decode c).length < 64 →
      Encryption.decrypt c mk =
        .error (.decryptionFailed "Invalid ciphertext format: too short")) ∧
    (∀ c : List Char, ∀ mk : List Nat, c ≠ [] → mk.length = 32 →
      ¬ (Base64.base64Decode c).length < 64 →
      Crypto.authTag (Crypto.pbkdf2 mk (Encryption.sliceSalt (Base64.base64Decode c)))
        (Encryption.sliceIv (Base64.base64Decode c))
        (Encryption.sliceCiphertext (Base64.base64Decode c)) ≠
        Encryption.sliceTag (Base64.base64Decode c) →
      Encryption.decrypt c mk =
        .error (.decryptionFailed "Unsupported state or unable to authenticate data")) ∧
    (∀ p : List Char, ∀ k1 k2 salt iv : List Nat, ∀ blob : List Char,
      Encryption.encrypt p k1 salt iv = .ok blob → k2.length = 32 →
      salt.length = 32 → iv.length = 16 → Bytes.allBytes salt → Bytes.allBytes iv →
      Crypto.authTag (Crypto.pbkdf2 k2 salt) iv (Encryption.ctBody p k1 salt iv) ≠
        Encryption.tagBody p k1 salt iv →
      Encryption.decrypt blob k2 =
        .error (.decryptionFailed "Unsupported state or unable to authenticate data")) ∧
    (∀ c : List Char, ∀ mk : List Nat, ∀ out, Encryption.decrypt c mk = .ok out →
      Crypto.authTag (Crypto.pbkdf2 mk (Encryption.sliceSalt (Base64.base64Decode c)))
        (Encryption.sliceIv (Base64.base64Decode c))
        (Encryption.sliceCiphertext (Base64.base64Decode c)) =
        Encryption.sliceTag (Base64.base64Decode c)) ∧
    (∀ c : List Char, ∀ mk : List Nat, ∀ e, c ≠ [] → mk.length = 32 →
      Encryption.decrypt c mk = .error e → ∃ inner, e = .decryptionFailed inner) := by
  refine ⟨?_, ?_, ?_, ?_, ?_⟩
  · intro c mk hc hmk hshort
    exact Encryption.decrypt_too_short c mk hc hmk hshort
  · intro c mk hc hmk hlong hmis
    exact Encryption.decrypt_tag_mismatch c mk hc hmk hlong hmis
  · intro p k1 k2 salt iv blob henc hk2 hs hiv hsb hivb hmis
    obtain ⟨hp, hk1, hb⟩ := Encryption.encrypt_ok_inv p k1 salt iv blob henc
    have hcombbytes := Encryption.combined_bytes p k1 salt iv hsb hivb
    have hcombne : salt ++ (iv ++ (Encryption.tagBody p k1 salt iv ++
        Encryption.ctBody p k1 salt iv)) ≠ [] := by
      intro h
      have := congrArg List.length h
      simp only [List.length_append, List.length_nil] at this
      omega
    have hblobne : blob ≠ [] := by
      rw [hb]
      exact Encryption.base64Encode_ne_nil _ hcombne
    have hdec : Base64.base64Decode blob = salt ++ (iv ++ (Encryption.tagBody p k1 salt iv ++
        Encryption.ctBody p k1 salt iv)) := by
      rw [hb]
      exact Base64.base64_roundtrip _ hcombbytes
    have hcomblen : (Base64.base64Decode blob).length =
        64 + (Encryption.ctBody p k1 salt iv).length := by
      rw [hdec]
      simp only [List.length_append, hs, hiv, Encryption.tagBody_length]
      omega
    have hlong : ¬ (Base64.base64Decode blob).length < 64 := by omega
    obtain ⟨e1, e2, e3, e4⟩ := Encryption.slice_concat salt iv _ _ hs hiv
      (Encryption.tagBody_length p k1 salt iv)
    apply Encryption.decrypt_tag_mismatch blob k2 hblobne hk2 hlong
    rw [hdec, e1, e2, e3, e4]
    exact hmis
  · intro c mk out hok
    exact ((Encryption.decrypt_cases c mk).1 out hok).1
  · intro c mk e hc hmk herr
    exact (Encryption.decrypt_cases c mk).2 hc hmk e herr

set_option maxRecDepth 16384 in
theorem claim_C2_decrypt_failures_witness :
    Encryption.decrypt ('Q' :: 'Q' :: []) mkA =
      .error (.decryptionFailed "Invalid ciphertext format: too short") ∧
    Encryption.decrypt blobA mkB =
      .error (.decryptionFailed "Unsupported state or unable to authenticate data") :=
  ⟨claim_C2_decrypt_failures.1 ('Q' :: 'Q' :: []) mkA (by decide) (by decide) (by decide),
   claim_C2_decrypt_failures.2.2.1 ptA mkA mkB saltA ivA blobA rfl (by decide)
     (by decide) (by decide) (by decide) (by decide) (by decide)⟩

/-- C3: the BYOK constructor normalizes the master key by trying the accepted
forms in priority order — a Buffer is used as-is, a string is base64-decoded
and used when that yields exactly 32 bytes, else its UTF-8 bytes are used.  A
32-byte binary value, a 32-character (ASCII) text value, and a base64 text
value decoding to 32 bytes are all accepted, and the three forms of the same
bytes normalize to the same 32-byte internal key; any value whose
normalization is not exactly 32 bytes is rejected at construction. -/
theorem claim_C3_master_key_normalization :
    (∀ b : List Nat, b.length = 32 → BYOK.construct (.buf b) = .ok b) ∧
    (∀ s : List Char, s.length = 32 → (∀ c ∈ s, c.toNat < 128) →
      BYOK.construct (.str s) = .ok (s.map Char.toNat)) ∧
    (∀ b : List Nat, b.length = 32 → Bytes.allBytes b →
      BYOK.construct (.str (Base64.base64Encode b)) = .ok b) ∧
    (∀ b : List Nat, b.length = 32 → (∀ x ∈ b, x < 128) →
      BYOK.construct (.str (b.map Char.ofNat)) = .ok b) ∧
    (∀ s : List Char, (Base64.base64Decode s).length = 32 →
      BYOK.normalizeMasterKey (.str s) = Base64.base64Decode s) ∧
    (∀ k : BYOK.MasterKeyInput, (BYOK.normalizeMasterKey k).length ≠ 32 →
      ∃ e, BYOK.construct k = .error e) := by
  have hstr32 : ∀ s : List Char, s.length = 32 → (∀ c ∈ s, c.toNat < 128) →
      BYOK.construct (.str s) = .ok (s.map Char.toNat) := by
    intro s hlen hascii
    have hsne : s ≠ [] := by
      intro h
      rw [h] at hlen
      simp at hlen
    have hb64 : (Base64.base64Decode s).length ≠ 32 := by
      have := Base64.base64Decode_length_le s
      rw [hlen] at this
      omega
    have hnorm : BYOK.normalizeMasterKey (.str s) = s.map Char.toNat := by
      simp only [BYOK.normalizeMasterKey, if_neg hb64]
      exact Utf8.utf8Encode_ascii s hascii
    rw [BYOK.construct, if_neg (by simp [BYOK.isFalsyKey, hsne]), hnorm,
      if_neg (by simp [List.length_map, hlen])]
  refine ⟨?_, hstr32, ?_, ?_, ?_, ?_⟩
  · intro b hb
    rw [BYOK.construct, if_neg (by simp [BYOK.isFalsyKey])]
    have hnorm : BYOK.normalizeMasterKey (.buf b) = b := rfl
    rw [hnorm, if_neg (by omega)]
  · intro b hb hbytes
    have hbne : b ≠ [] := by
      intro h
      rw [h] at hb
      simp at hb
    have hsne : Base64.base64Encode b ≠ [] := Encryption.base64Encode_ne_nil b hbne
    have hdec : Base64.base64Decode (Base64.base64Encode b) = b :=
      Base64.base64_roundtrip b hbytes
    have hnorm : BYOK.normalizeMasterKey (.str (Base64.base64Encode b)) = b := by
      simp only [BYOK.normalizeMasterKey, hdec, hb, if_true]
    rw [BYOK.construct, if_neg (by simp [BYOK.isFalsyKey, hsne]), hnorm,
      if_neg (by omega)]
  · intro b hb hsmall
    have hvalid : ∀ x ∈ b, Nat.isValidChar x := by
      intro x hx
      exact Or.inl (by
        have := hsmall x hx
        omega)
    have hmap : (b.map Char.ofNat).map Char.toNat = b := by
      rw [List.map_map]
      have : ∀ x ∈ b, (Char.toNat ∘ Char.ofNat) x = id x := by
        intro x hx
        simp only [Function.comp_apply, id_eq]
        exact Utf8.toNat_ofNat_of_valid x (hvalid x hx)
      rw [List.map_congr_left this, List.map_id]
    have hascii : ∀ c ∈ b.map Char.ofNat, c.toNat < 128 := by
      intro c hc
      obtain ⟨x, hx, rfl⟩ := List.mem_map.mp hc
      rw [Utf8.toNat_ofNat_of_valid x (hvalid x hx)]
      exact hsmall x hx
    have hlen : (b.map Char.ofNat).length = 32 := by
      rw [List.length_map, hb]
    rw [hstr32 (b.map Char.ofNat) hlen hascii, hmap]
  · intro s h32
    simp only [BYOK.normalizeMasterKey, if_pos h32]
  · intro k hk
    match k with
    | .buf b =>
      refine ⟨"Master key must be exactly 32 bytes (256 bits).", ?_⟩
      rw [BYOK.construct, if_neg (by simp [BYOK.isFalsyKey]), if_pos hk]
    | .str s =>
      by_cases hs : s = []
      · refine ⟨"masterKey is required in BYOK configuration", ?_⟩
        rw [BYOK.construct, if_pos (by simp [BYOK.isFalsyKey, hs])]
      · refine ⟨"Master key must be exactly 32 bytes (256 bits).", ?_⟩
        rw [BYOK.construct, if_neg (by simp [BYOK.isFalsyKey, hs]), if_pos hk]

theorem claim_C3_master_key_normalization_witness :
    BYOK.construct (.buf mkA) = .ok mkA ∧
    BYOK.construct (.str (Base64.base64Encode mkA)) = .ok mkA ∧
    BYOK.construct (.str (mkA.map Char.ofNat)) = .ok mkA ∧
    BYOK.construct (.buf (List.replicate 31 7)) =
      .error "Master key must be exactly 32 bytes (256 bits)." :=
  ⟨claim_C3_master_key_normalization.1 mkA (by decide),
   claim_C3_master_key_normalization.2.2.1 mkA (by decide) (by decide),
   claim_C3_master_key_normalization.2.2.2.1 mkA (by decide) (by decide),
   by
    obtain ⟨e, he⟩ := claim_C3_master_key_normalization.2.2.2.2.2
      (.buf (List.replicate 31 7)) (by decide)
    rw [he]
    have : e = "Master key must be exactly 32 bytes (256 bits)." := by
      rw [BYOK.construct] at he
      rw [if_neg (by simp [BYOK.isFalsyKey])] at he
      rw [if_pos (by decide)] at he
      simp only [Except.error.injEq] at he
      exact he.symm
    rw [this]⟩

instance (st : MemoryStore.Store) : Decidable (MemoryStore.WF st) := by
  unfold MemoryStore.WF; infer_instance

/-- C4: whenever registerKey fails validation (missing userId, provider or
apiKey, a provider other than gemini, or a malformed apiKey), it throws
before invoking the cipher or the store: the error does not depend on the
store contents, the randomness draws or the clock, the resulting store state
is the unchanged input store, and hasKey for the attempted identity stays
false. -/
theorem claim_C4_validation_no_side_effect (mk : List Nat)
    (input : BYOK.RegisterKeyInput) (hmk : mk.length = 32)
    (hbad : input.userId = [] ∨ input.provider = [] ∨ input.apiKey = [] ∨
      input.provider ≠ BYOK.geminiStr ∨ BYOK.geminiKeyValid input.apiKey = false) :
    ∃ e, ∀ st : MemoryStore.Store, ∀ salt iv : List Nat, ∀ now : Nat,
      BYOK.registerKey st mk input salt iv now = .error e ∧
      (BYOK.registerKey st mk input salt iv now).toOption.getD st = st ∧
      (∀ u p, MemoryStore.has st u p = false →
        MemoryStore.has ((BYOK.registerKey st mk input salt iv now).toOption.getD st) u p
          = false) := by
  have hmk' : ¬ (mk.length ≠ 32) := by omega
  have key : ∃ e, ∀ st : MemoryStore.Store, ∀ salt iv : List Nat, ∀ now : Nat,
      BYOK.registerKey st mk input salt iv now = .error e := by
    by_cases h1 : input.userId = []
    · exact ⟨.userIdRequired, fun st salt iv now => by
        rw [BYOK.registerKey, if_neg hmk', if_pos h1]⟩
    · by_cases h2 : input.provider = []
      · exact ⟨.providerRequired, fun st salt iv now => by
          rw [BYOK.registerKey, if_neg hmk', if_neg h1, if_pos h2]⟩
      · by_cases h3 : input.apiKey = []
        · exact ⟨.apiKeyRequired, fun st salt iv now => by
            rw [BYOK.registerKey, if_neg hmk', if_neg h1, if_neg h2, if_pos h3]⟩
        · by_cases h4 : input.provider ≠ BYOK.geminiStr
          · exact ⟨.unsupportedProvider, fun st salt iv now => by
              rw [BYOK.registerKey, if_neg hmk', if_neg h1, if_neg h2, if_neg h3,
                if_pos h4]⟩
          · have h5 : BYOK.geminiKeyValid input.apiKey = false := by
              rcases hbad with h | h | h | h | h
              · exact absurd h h1
              · exact absurd h h2
              · exact absurd h h3
              · exact absurd h h4
              · exact h
            exact ⟨.invalidApiKey, fun st salt iv now => by
              rw [BYOK.registerKey, if_neg hmk', if_neg h1, if_neg h2, if_neg h3,
                if_neg h4, if_pos (by simp [h5])]⟩
  obtain ⟨e, he⟩ := key
  refine ⟨e, fun st salt iv now => ?_⟩
  have h := he st salt iv now
  refine ⟨h, by rw [h]; rfl, fun u p hf => ?_⟩
  rw [h]
  exact hf

theorem claim_C4_validation_no_side_effect_witness :
    ∃ e, BYOK.registerKey [] mkA
        ⟨'u' :: '1' :: [], BYOK.geminiStr, 'b' :: 'a' :: 'd' :: []⟩ saltA ivA 0 =
        .error e ∧
      MemoryStore.has ((BYOK.registerKey [] mkA
        ⟨'u' :: '1' :: [], BYOK.geminiStr, 'b' :: 'a' :: 'd' :: []⟩ saltA ivA 0
        ).toOption.getD []) ('u' :: '1' :: []) BYOK.geminiStr = false := by
  obtain ⟨e, he⟩ := claim_C4_validation_no_side_effect mkA
    ⟨'u' :: '1' :: [], BYOK.geminiStr, 'b' :: 'a' :: 'd' :: []⟩ (by decide)
    (Or.inr (Or.inr (Or.inr (Or.inr (by decide)))))
  have h := he [] saltA ivA 0
  exact ⟨e, h.1, h.2.2 ('u' :: '1' :: []) BYOK.geminiStr (by decide)⟩

/-- C5: at most one live record per identity key.  A successful registerKey
for (userId, gemini) replaces any prior record for that exact identity key —
two successive registrations leave exactly one record for it, get returns
the second registration's ciphertext, and (under distinct salt draws) the
previous ciphertext is no longer retrievable — and a registration leaves
every other identity key unchanged; in particular it never makes
hasKey(userB, gemini) change for userB distinct from userA. -/
theorem claim_C5_identity_key_uniqueness :
    (∀ st st1 st2 : MemoryStore.Store, ∀ mk : List Nat, ∀ u apiKey1 apiKey2 : List Char,
      ∀ salt1 iv1 salt2 iv2 : List Nat, ∀ now1 now2 : Nat,
      MemoryStore.WF st →
      BYOK.registerKey st mk ⟨u, BYOK.geminiStr, apiKey1⟩ salt1 iv1 now1 = .ok st1 →
      BYOK.registerKey st1 mk ⟨u, BYOK.geminiStr, apiKey2⟩ salt2 iv2 now2 = .ok st2 →
      MemoryStore.countKey st2 (MemoryStore.skey u BYOK.geminiStr) = 1 ∧
      (∃ enc2, Encryption.encrypt apiKey2 mk salt2 iv2 = .ok enc2 ∧
        MemoryStore.get st2 u BYOK.geminiStr = some ⟨u, BYOK.geminiStr, enc2, now2⟩) ∧
      (salt1.length = 32 → iv1.length = 16 → salt2.length = 32 → iv2.length = 16 →
        Bytes.allBytes salt1 → Bytes.allBytes iv1 →
        Bytes.allBytes salt2 → Bytes.allBytes iv2 → salt1 ≠ salt2 →
        ∀ enc1, Encryption.encrypt apiKey1 mk salt1 iv1 = .ok enc1 →
          (MemoryStore.get st2 u BYOK.geminiStr).map KeyRecord.encryptedKey ≠
            some enc1)) ∧
    (∀ st st1 : MemoryStore.Store, ∀ mk : List Nat, ∀ u1 apiKey : List Char,
      ∀ salt iv : List Nat, ∀ now : Nat,
      BYOK.registerKey st mk ⟨u1, BYOK.geminiStr, apiKey⟩ salt iv now = .ok st1 →
      (∀ u2 p2, MemoryStore.skey u2 p2 ≠ MemoryStore.skey u1 BYOK.geminiStr →
        MemoryStore.get st1 u2 p2 = MemoryStore.get st u2 p2) ∧
      (∀ u2, u2 ≠ u1 →
        MemoryStore.has st1 u2 BYOK.geminiStr = MemoryStore.has st u2 BYOK.geminiStr)) := by
  constructor
  · intro st st1 st2 mk u apiKey1 apiKey2 salt1 iv1 salt2 iv2 now1 now2 hwf h1 h2
    obtain ⟨-, -, -, -, enc1', henc1', hst1⟩ :=
      BYOK.registerKey_ok_inv st mk _ salt1 iv1 now1 st1 h1
    obtain ⟨-, -, -, -, enc2, henc2, hst2⟩ :=
      BYOK.registerKey_ok_inv st1 mk _ salt2 iv2 now2 st2 h2
    have hwf1 : MemoryStore.WF st1 := hst1 ▸ MemoryStore.WF_set st _ hwf
    refine ⟨?_, ⟨enc2, henc2, ?_⟩, ?_⟩
    · rw [hst2]
      exact MemoryStore.countKey_set_self st1 ⟨u, BYOK.geminiStr, enc2, now2⟩ hwf1
    · rw [hst2]
      exact MemoryStore.get_set_same st1 ⟨u, BYOK.geminiStr, enc2, now2⟩
    · intro hs1 hiv1 hs2 hiv2 hb1 hbi1 hb2 hbi2 hsne enc1 henc1
      have hget : MemoryStore.get st2 u BYOK.geminiStr =
          some ⟨u, BYOK.geminiStr, enc2, now2⟩ := by
        rw [hst2]
        exact MemoryStore.get_set_same st1 ⟨u, BYOK.geminiStr, enc2, now2⟩
      rw [hget]
      have hne := Encryption.encrypt_ne_of_rand_ne apiKey1 apiKey2 mk salt1 iv1 salt2 iv2
        enc1 enc2 henc1 henc2 hs1 hiv1 hs2 hiv2 hb1 hbi1 hb2 hbi2 (Or.inl hsne)
      intro h
      have h2 : enc2 = enc1 := by simpa using h
      exact hne h2.symm
  · intro st st1 mk u1 apiKey salt iv now h1
    obtain ⟨-, -, -, -, enc, henc, hst1⟩ :=
      BYOK.registerKey_ok_inv st mk _ salt iv now st1 h1
    constructor
    · intro u2 p2 hne
      rw [hst1]
      exact MemoryStore.get_set_other st ⟨u1, BYOK.geminiStr, enc, now⟩ u2 p2 hne
    · intro u2 hne
      have hkne : MemoryStore.skey u2 BYOK.geminiStr ≠
          MemoryStore.skey u1 BYOK.geminiStr := by
        intro h
        exact hne (MemoryStore.skey_inj_user u2 u1 BYOK.geminiStr h)
      rw [hst1, MemoryStore.has_eq_isSome_get, MemoryStore.has_eq_isSome_get,
        MemoryStore.get_set_other st ⟨u1, BYOK.geminiStr, enc, now⟩ u2 _ hkne]

/-- First user id for the concrete store runs. -/
def uA : List Char := 'u' :: '1' :: []

/-- Second user id for the concrete store runs. -/
def uB : List Char := 'u' :: '2' :: []

/-- A well-formed Gemini api key. -/
def apiKeyA : List Char := "AIabcdefghij".toList

/-- A second well-formed Gemini api key. -/
def apiKeyB : List Char := "AIzzzzzzzzzz".toList

/-- Store after registering apiKeyA for (uA, gemini) in the empty store. -/
def regSt1 : MemoryStore.Store :=
  (BYOK.registerKey [] mkA ⟨uA, BYOK.geminiStr, apiKeyA⟩ saltA ivA 0).toOption.getD []

/-- Store after re-registering apiKeyB for (uA, gemini) in regSt1. -/
def regSt2 : MemoryStore.Store :=
  (BYOK.registerKey regSt1 mkA ⟨uA, BYOK.geminiStr, apiKeyB⟩ saltB ivB 1).toOption.getD []

set_option maxRecDepth 16384 in
theorem claim_C5_identity_key_uniqueness_witness :
    MemoryStore.countKey regSt2 (MemoryStore.skey uA BYOK.geminiStr) = 1 ∧
    MemoryStore.has regSt2 uB BYOK.geminiStr = MemoryStore.has regSt1 uB BYOK.geminiStr ∧
    MemoryStore.has regSt1 uB BYOK.geminiStr = MemoryStore.has ([] : MemoryStore.Store)
      uB BYOK.geminiStr := by
  refine ⟨?_, ?_, ?_⟩
  · exact (claim_C5_identity_key_uniqueness.1 [] regSt1 regSt2 mkA uA apiKeyA apiKeyB
      saltA ivA saltB ivB 0 1 (by decide) rfl rfl).1
  · exact (claim_C5_identity_key_uniqueness.2 regSt1 regSt2 mkA uA apiKeyB
      saltB ivB 1 rfl).2 uB (by decide)
  · exact (claim_C5_identity_key_uniqueness.2 [] regSt1 mkA uA apiKeyA
      saltA ivA 0 rfl).2 uB (by decide)

/-- C6: use(userId).chat defaults the provider to gemini when omitted (or
empty, both falsy in JS), fails with unsupportedProvider for any other
provider, and when no record exists for (userId, gemini) — including right
after a successful deleteKey for that identity — fails with the noKeyFound
error, which is a different error from every decryption failure; the
noKeyFound outcome does not depend on the master key or on the provider
adapter, which are therefore not invoked. -/
theorem claim_C6_chat_not_found :
    (∀ st : MemoryStore.Store, ∀ mk : List Nat, ∀ u prompt : List Char,
      ∀ model : Option (List Char),
      ∀ adapter : List Char → List Char → List Char → List Char,
      BYOK.chat st mk u none prompt model adapter =
        BYOK.chat st mk u (some BYOK.geminiStr) prompt model adapter ∧
      BYOK.chat st mk u (some []) prompt model adapter =
        BYOK.chat st mk u (some BYOK.geminiStr) prompt model adapter) ∧
    (∀ st : MemoryStore.Store, ∀ mk : List Nat, ∀ u p prompt : List Char,
      ∀ model : Option (List Char),
      ∀ adapter : List Char → List Char → List Char → List Char,
      mk.length = 32 → p ≠ [] → p ≠ BYOK.geminiStr →
      BYOK.chat st mk u (some p) prompt model adapter = .error .unsupportedProvider) ∧
    (∀ st : MemoryStore.Store, ∀ mk : List Nat, ∀ u prompt : List Char,
      ∀ model : Option (List Char),
      ∀ adapter : List Char → List Char → List Char → List Char,
      mk.length = 32 → MemoryStore.get st u BYOK.geminiStr = none →
      BYOK.chat st mk u none prompt model adapter = .error .noKeyFound) ∧
    (∀ st st' : MemoryStore.Store, ∀ b : Bool, ∀ mk : List Nat, ∀ u prompt : List Char,
      ∀ model : Option (List Char),
      ∀ adapter : List Char → List Char → List Char → List Char,
      mk.length = 32 → MemoryStore.WF st →
      BYOK.deleteKey st mk u BYOK.geminiStr = .ok (st', b) →
      BYOK.chat st' mk u none prompt model adapter = .error .noKeyFound) ∧
    (∀ e : CipherErr, ChatErr.noKeyFound ≠ ChatErr.decryptFailed e) := by
  have hdef : ∀ st : MemoryStore.Store, ∀ mk : List Nat, ∀ u prompt : List Char,
      ∀ model : Option (List Char),
      ∀ adapter : List Char → List Char → List Char → List Char,
      mk.length = 32 → MemoryStore.get st u BYOK.geminiStr = none →
      BYOK.chat st mk u none prompt model adapter = .error .noKeyFound := by
    intro st mk u prompt model adapter hmk hget
    rw [BYOK.chat.eq_def, if_neg (by omega)]
    simp only [hget]
    rw [if_neg (by simp)]
  refine ⟨?_, ?_, hdef, ?_, ?_⟩
  · intro st mk u prompt model adapter
    exact ⟨rfl, rfl⟩
  · intro st mk u p prompt model adapter hmk hpne hpg
    rw [BYOK.chat.eq_def, if_neg (by omega)]
    simp only [if_neg hpne]
    rw [if_pos hpg]
  · intro st st' b mk u prompt model adapter hmk hwf hdel
    rw [BYOK.deleteKey, if_neg (by omega)] at hdel
    simp only [Except.ok.injEq] at hdel
    have hst' : st' = (MemoryStore.delete st u BYOK.geminiStr).1 := by
      rw [hdel]
    apply hdef st' mk u prompt model adapter hmk
    rw [hst']
    exact MemoryStore.get_delete_same st u BYOK.geminiStr hwf
  · intro e h
    exact absurd h (by simp)

set_option maxRecDepth 16384 in
theorem claim_C6_chat_not_found_witness :
    BYOK.chat [] mkA uA none ('h' :: 'i' :: []) none (fun _ _ _ => []) =
      .error .noKeyFound ∧
    BYOK.chat (MemoryStore.delete regSt1 uA BYOK.geminiStr).1 mkA uA none
      ('h' :: 'i' :: []) none (fun _ _ _ => []) = .error .noKeyFound ∧
    BYOK.chat [] mkA uA (some ('x' :: [])) ('h' :: 'i' :: []) none (fun _ _ _ => []) =
      .error .unsupportedProvider := by
  refine ⟨?_, ?_, ?_⟩
  · exact claim_C6_chat_not_found.2.2.1 [] mkA uA ('h' :: 'i' :: []) none
      (fun _ _ _ => []) (by decide) rfl
  · exact claim_C6_chat_not_found.2.2.2.1 regSt1 (MemoryStore.delete regSt1 uA
      BYOK.geminiStr).1 (MemoryStore.delete regSt1 uA BYOK.geminiStr).2 mkA uA
      ('h' :: 'i' :: []) none (fun _ _ _ => []) (by decide) (by decide) rfl
  · exact claim_C6_chat_not_found.2.1 [] mkA uA ('x' :: []) ('h' :: 'i' :: []) none
      (fun _ _ _ => []) (by decide) (by decide) (by decide)

/-- C9: with the other registerKey inputs valid, an apiKey passes validation
exactly when it is the character A, then the character I, then at least 10
characters drawn from ASCII letters, digits, hyphen and underscore — the
regex anchored at both ends — and every other non-empty apiKey makes
registerKey throw the invalid-api-key validation error. -/
theorem claim_C9_apikey_pattern (st : MemoryStore.Store) (mk : List Nat)
    (input : BYOK.RegisterKeyInput) (salt iv : List Nat) (now : Nat)
    (hmk : mk.length = 32) (hu : input.userId ≠ [])
    (hpr : input.provider = BYOK.geminiStr) (hne : input.apiKey ≠ []) :
    ((∃ st', BYOK.registerKey st mk input salt iv now = .ok st') ↔
      (∃ rest, input.apiKey = 'A' :: 'I' :: rest ∧ 10 ≤ rest.length ∧
        ∀ c ∈ rest, BYOK.isKeyChar c = true)) ∧
    (BYOK.geminiKeyValid input.apiKey = false →
      BYOK.registerKey st mk input salt iv now = .error .invalidApiKey) := by
  have hprne : ¬ (input.provider = []) := by
    rw [hpr]
    decide
  have hprg : ¬ (input.provider ≠ BYOK.geminiStr) := by
    rw [hpr]
    simp
  constructor
  · constructor
    · rintro ⟨st', hok⟩
      obtain ⟨-, -, -, hvalid, -⟩ :=
        BYOK.registerKey_ok_inv st mk input salt iv now st' hok
      exact (BYOK.geminiKeyValid_iff input.apiKey).mp hvalid
    · intro hshape
      have hvalid : BYOK.geminiKeyValid input.apiKey = true :=
        (BYOK.geminiKeyValid_iff input.apiKey).mpr hshape
      refine ⟨MemoryStore.set st ⟨input.userId, input.provider,
        Base64.base64Encode (salt ++ (iv ++ (Encryption.tagBody input.apiKey mk salt iv ++
          Encryption.ctBody input.apiKey mk salt iv))), now⟩, ?_⟩
      rw [BYOK.registerKey, if_neg (by omega), if_neg hu, if_neg hprne, if_neg hne,
        if_neg hprg, if_neg (by simp [hvalid]),
        Encryption.encrypt_eq_ok input.apiKey mk salt iv hne hmk]
  · intro hinvalid
    rw [BYOK.registerKey, if_neg (by omega), if_neg hu, if_neg hprne, if_neg hne,
      if_neg hprg, if_pos (by simp [hinvalid])]

theorem claim_C9_apikey_pattern_witness :
    (∃ st', BYOK.registerKey [] mkA ⟨uA, BYOK.geminiStr, apiKeyA⟩ saltA ivA 0 =
      .ok st') ∧
    BYOK.registerKey [] mkA ⟨uA, BYOK.geminiStr, 'b' :: 'a' :: 'd' :: []⟩ saltA ivA 0 =
      .error .invalidApiKey :=
  ⟨(claim_C9_apikey_pattern [] mkA ⟨uA, BYOK.geminiStr, apiKeyA⟩ saltA ivA 0
      (by decide) (by decide) rfl (by decide)).1.mpr
      ⟨"abcdefghij".toList, by decide, by decide, by decide⟩,
   (claim_C9_apikey_pattern [] mkA ⟨uA, BYOK.geminiStr, 'b' :: 'a' :: 'd' :: []⟩
      saltA ivA 0 (by decide) (by decide) rfl (by decide)).2 (by decide)⟩
